import Mathlib

/-!
# protodoc: the documentation model builder (`types.go`)

A shallow embedding of the model builder of `derbylock/protodoc` and theorems about it.

Conventions of the embedding.

* Go `string` values are Lean `String`s (valid UTF-8 text).  The separator of every
  `strings.Split` in the source is the one-character string `"."`, so splitting bytes and
  splitting characters agree.
* `Field.protoFile` (a pointer back to the `ProtoFile` under construction, read only when a
  field is rendered) is passed explicitly to the resolver functions as the argument `pf`.
* A Go function returning `(string, bool)` returns `String × Bool`.
* `Type` is reserved in Lean: the Go fields and the method named `Type` are written `Typ`.
* The syntax tree of `go-protoparser` is the inductive type `parser.Visitee`; a comment node is
  represented by the list of lines that its `Lines()` method returns.
-/

set_option autoImplicit false

namespace Protodoc

namespace strings

/-- Split a character list at every occurrence of `sep`. -/
def splitChars (sep : Char) : List Char → List (List Char)
  | [] => [[]]
  | c :: cs =>
    if c = sep then [] :: splitChars sep cs
    else
      match splitChars sep cs with
      | [] => [[c]]
      | h :: t => (c :: h) :: t

/-- Go `strings.Split(s, sep)` for a one-character separator. -/
def Split (s : String) (sep : Char) : List String :=
  (splitChars sep s.data).map String.mk

/-- Go `strings.Join(elems, sep)`. -/
def Join : List String → String → String
  | [], _ => ""
  | [a], _ => a
  | a :: b :: rest, sep => a ++ sep ++ Join (b :: rest) sep

/-- Go `unicode.IsSpace`. -/
def isSpace (c : Char) : Bool :=
  let n := c.toNat
  n = 0x09 || n = 0x0A || n = 0x0B || n = 0x0C || n = 0x0D || n = 0x20 || n = 0x85 || n = 0xA0
    || n = 0x1680 || (0x2000 ≤ n && n ≤ 0x200A) || n = 0x2028 || n = 0x2029 || n = 0x202F
    || n = 0x205F || n = 0x3000

/-- Go `strings.TrimSpace(s)`. -/
def TrimSpace (s : String) : String :=
  String.mk ((s.data.dropWhile isSpace).reverse.dropWhile isSpace).reverse

/-- Go `strings.HasPrefix(s, prefix)`. -/
def HasPrefix (s pre : String) : Bool :=
  pre.data.isPrefixOf s.data

/-- Go `strings.TrimPrefix(s, prefix)`. -/
def TrimPrefix (s pre : String) : String :=
  if HasPrefix s pre then String.mk (s.data.drop pre.data.length) else s

end strings

/-! ## Data model (`types.go`, lines 17-122) -/

structure Field where
  Comment : String
  Name : String
  TypeName : String
  KeyTypeName : String
  Repeat : Bool
  Enclosing : String
  deriving DecidableEq, Repr

structure Object where
  Comment : String
  Name : String
  Attrs : List Field
  deriving DecidableEq, Repr

structure EnumField where
  Comment : String
  Name : String
  Val : String
  Enclosing : String
  deriving DecidableEq, Repr

structure Enum where
  Comment : String
  Name : String
  Constants : List EnumField
  deriving DecidableEq, Repr

inductive RPCType where
  | Unary
  | ServerStreaming
  | ClientStreaming
  | BidirectionalStreaming
  deriving DecidableEq, Repr

structure Request where
  Params : List Field
  Typ : String
  deriving DecidableEq, Repr

structure Response where
  Params : List Field
  Typ : String
  deriving DecidableEq, Repr

structure Endpoint where
  PackageName : String
  ServiceName : String
  MethodName : String
  URLPath : String
  HTTPMethod : String
  Comment : String
  Markdown : String
  Typ : RPCType
  Request : Request
  Response : Response
  Extensions : Option (List (String × String))
  deriving DecidableEq, Repr

structure Service where
  Comment : String
  PackageName : String
  ServiceName : String
  Operations : List Endpoint
  deriving DecidableEq, Repr

structure ProtoFile where
  Services : List Service
  Objects : List Object
  Enums : List Enum
  deriving DecidableEq, Repr

/-! ## Type resolver (`types.go`, lines 442-563) -/

def scalarTypes : List String :=
  ["double", "float", "int32", "int64", "uint32", "uint64", "sint32", "sint64",
   "fixed32", "fixed64", "sfixed32", "sfixed64", "bool", "string", "bytes"]

def Field.isScalar (f : Field) : String × Bool :=
  if f.KeyTypeName ≠ "" then ("", false)
  else (f.TypeName, decide (f.TypeName ∈ scalarTypes))

/-- One iteration, at index `i`, of the loop of `Field.isEnum`; `next` is the result of the
iterations that follow it. -/
def Field.isEnum.body (f : Field) (pf : ProtoFile) (scopes : List String) (i : Nat)
    (next : String × Bool) : String × Bool :=
  let scope := strings.Join (scopes.take i) "."
  let qualified := if scope ≠ "" then scope ++ "." ++ f.TypeName else f.TypeName
  match pf.Enums.find? (fun e => decide (qualified = e.Name)) with
  | some e => (e.Name, true)
  | none => next

/-- The loop `for i := len(scopes); i >= 0; i--` of `Field.isEnum`, entered at index `i`. -/
def Field.isEnum.loop (f : Field) (pf : ProtoFile) (scopes : List String) : Nat → String × Bool
  | 0 => Field.isEnum.body f pf scopes 0 ("", false)
  | j + 1 => Field.isEnum.body f pf scopes (j + 1) (Field.isEnum.loop f pf scopes j)

def Field.isEnum (f : Field) (pf : ProtoFile) : String × Bool :=
  if f.KeyTypeName ≠ "" then ("", false)
  else
    let scopes := strings.Split f.Enclosing '.'
    Field.isEnum.loop f pf scopes scopes.length

/-- One iteration, at index `i`, of the loop of `Field.isObject`; `next` is the result of the
iterations that follow it. -/
def Field.isObject.body (f : Field) (pf : ProtoFile) (scopes : List String) (i : Nat)
    (next : String × Bool) : String × Bool :=
  let scope := strings.Join (scopes.take i) "."
  let qualified := if scope ≠ "" then scope ++ "." ++ f.TypeName else f.TypeName
  match pf.Objects.find? (fun o => decide (qualified = o.Name)) with
  | some o => (o.Name, true)
  | none => next

/-- The loop `for i := len(scopes); i >= 0; i--` of `Field.isObject`, entered at index `i`. -/
def Field.isObject.loop (f : Field) (pf : ProtoFile) (scopes : List String) : Nat → String × Bool
  | 0 => Field.isObject.body f pf scopes 0 ("", false)
  | j + 1 => Field.isObject.body f pf scopes (j + 1) (Field.isObject.loop f pf scopes j)

def Field.isObject (f : Field) (pf : ProtoFile) : String × Bool :=
  if f.KeyTypeName ≠ "" then ("", false)
  else
    let scopes := strings.Split f.Enclosing '.'
    Field.isObject.loop f pf scopes scopes.length

def Field.findQualified (_f : Field) (pf : ProtoFile) (scope : String) (qualified : String) :
    String × Bool :=
  let qualified := if scope ≠ "" then scope ++ "." ++ qualified else qualified
  if pf.Objects.any (fun o => decide (qualified = o.Name)) then (qualified, true)
  else ("", false)

/-- One iteration, at index `i`, of the loop of `Field.isMap`; `next` is the result of the
iterations that follow it.  The value type is looked up only when the key type was found. -/
def Field.isMap.body (f : Field) (pf : ProtoFile) (scopes : List String) (i : Nat)
    (next : String × String × Bool) : String × String × Bool :=
  let scope := strings.Join (scopes.take i) "."
  if (f.findQualified pf scope f.KeyTypeName).2 then
    if (f.findQualified pf scope f.TypeName).2 then
      ((f.findQualified pf scope f.KeyTypeName).1, (f.findQualified pf scope f.TypeName).1, true)
    else next
  else next

/-- The loop `for i := len(scopes); i >= 0; i--` of `Field.isMap`, entered at index `i`. -/
def Field.isMap.loop (f : Field) (pf : ProtoFile) (scopes : List String) :
    Nat → String × String × Bool
  | 0 => Field.isMap.body f pf scopes 0 (f.KeyTypeName, f.TypeName, true)
  | j + 1 => Field.isMap.body f pf scopes (j + 1) (Field.isMap.loop f pf scopes j)

def Field.isMap (f : Field) (pf : ProtoFile) : String × String × Bool :=
  if f.KeyTypeName = "" then ("", "", false)
  else
    let scopes := strings.Split f.Enclosing '.'
    Field.isMap.loop f pf scopes scopes.length

def Field.TypeBase (f : Field) (pf : ProtoFile) : String :=
  if f.isScalar.2 then f.isScalar.1
  else if (f.isEnum pf).2 then "enum " ++ (f.isEnum pf).1
  else if (f.isObject pf).2 then "message " ++ (f.isObject pf).1
  else if (f.isMap pf).2.2 then "map <" ++ (f.isMap pf).1 ++ ", " ++ (f.isMap pf).2.1 ++ ">"
  else "(" ++ f.TypeName ++ ")"

/-- Renders the type of `f` in the scope of `pf`. -/
def Field.Typ (f : Field) (pf : ProtoFile) : String :=
  if f.TypeName = "" then "(nil)"
  else if f.Repeat then "[]" ++ f.TypeBase pf else f.TypeBase pf

/-! ## The syntax tree of `go-protoparser` -/

namespace parser

/-- A comment node, given by the lines that `Comment.Lines()` returns. -/
structure Comment where
  Lines : List String
  deriving DecidableEq, Repr

structure RPCRequest where
  IsStream : Bool
  MessageType : String
  deriving DecidableEq, Repr

structure RPCResponse where
  IsStream : Bool
  MessageType : String
  deriving DecidableEq, Repr

/-- The elements of a proto body, service body, message body or enum body (`parser.Visitee`).
`other` stands for every node kind that `types.go` never inspects (options, imports, ...). -/
inductive Visitee where
  | Comment (c : Comment)
  | Package (Name : String) (Comments : List Comment)
  | Service (ServiceName : String) (ServiceBody : List Visitee) (Comments : List Comment)
  | RPC (RPCName : String) (RPCRequest : RPCRequest) (RPCResponse : RPCResponse)
      (Comments : List Comment) (InlineComment : Option Comment)
  | Message (MessageName : String) (MessageBody : List Visitee) (Comments : List Comment)
  | Field (FieldName : String) (Typ : String) (IsRepeated : Bool)
      (Comments : List Comment) (InlineComment : Option Comment)
  | MapField (MapName : String) (KeyType : String) (Typ : String)
      (Comments : List Comment) (InlineComment : Option Comment)
  | Enum (EnumName : String) (EnumBody : List Visitee) (Comments : List Comment)
  | EnumField (Ident : String) (Number : String)
      (Comments : List Comment) (InlineComment : Option Comment)
  | other

structure Proto where
  ProtoBody : List Visitee

/-- The fields of `parser.Service` that `types.go` reads. -/
structure Service where
  ServiceName : String
  ServiceBody : List Visitee
  Comments : List Comment

/-- The fields of `parser.Message` that `types.go` reads. -/
structure Message where
  MessageName : String
  MessageBody : List Visitee
  Comments : List Comment

/-- The fields of `parser.Enum` that `types.go` reads. -/
structure Enum where
  EnumName : String
  EnumBody : List Visitee
  Comments : List Comment

/-- The fields of `parser.RPC` that `types.go` reads. -/
structure RPC where
  RPCName : String
  RPCRequest : RPCRequest
  RPCResponse : RPCResponse
  Comments : List Comment
  InlineComment : Option Comment

end parser

/-! ## Errors -/

/-- The `error` values built in `types.go`: the message of `findMessage`, and `fmt.Errorf`
wrapping (`%w`) with a context string. -/
inductive Error where
  | noMessage (mt : String)
  | wrap (context : String) (cause : Error)
  deriving DecidableEq, Repr

/-! ## Extension maps (`map[string]string`) -/

/-- A Go `map[string]string`, as an association list without repeated keys. -/
abbrev StrMap := List (String × String)

/-- The assignment `m[k] = v`. -/
def StrMap.set : StrMap → String → String → StrMap
  | [], k, v => [(k, v)]
  | (k', v') :: rest, k, v =>
    if k' = k then (k, v) :: rest else (k', v') :: StrMap.set rest k v

/-- The lookup `m[k]`, with `ok`. -/
def StrMap.get? : StrMap → String → Option String
  | [], _ => none
  | (k', v') :: rest, k => if k' = k then some v' else StrMap.get? rest k

/-- Runs `for k, v := range src { dst[k] = v }`. -/
def StrMap.setAll (dst src : StrMap) : StrMap :=
  src.foldl (fun m kv => StrMap.set m kv.1 kv.2) dst

/-! ## Comment composer (`types.go`, lines 182-275) -/

def XDomainExtension : String := "x-domain"

def XDomainCategoryExtension : String := "x-category"

def removeInitialAsterisk (line : String) : String :=
  let line := strings.TrimSpace line
  if strings.HasPrefix line "* " then strings.TrimPrefix line "* "
  else if line = "*" then ""
  else strings.TrimPrefix line "*\t"

/-- The loop of `removeInitialEmptyLinesAndAsterisks`, with the current value of
`hasNotEmpty`; the result is what the remaining lines append to `res`. -/
def removeInitialEmptyLinesAndAsterisks.loop : Bool → List String → List String
  | _, [] => []
  | hasNotEmpty, line :: rest =>
    let trimmedLine := strings.TrimSpace line
    if !hasNotEmpty && (trimmedLine = "" || strings.HasPrefix line "* " || trimmedLine = "*"
        || strings.HasPrefix line "*\t") then
      removeInitialEmptyLinesAndAsterisks.loop hasNotEmpty rest
    else
      removeInitialAsterisk line :: removeInitialEmptyLinesAndAsterisks.loop true rest

def removeInitialEmptyLinesAndAsterisks (lines : List String) : List String :=
  removeInitialEmptyLinesAndAsterisks.loop false lines

def extractComment (pc : Option parser.Comment) : String :=
  match pc with
  | none => ""
  | some c =>
    let lines := removeInitialEmptyLinesAndAsterisks c.Lines
    strings.TrimSpace (strings.Join lines "\n")

/-- The body of the loop of `getExtensions` for one line. -/
def getExtensions.body (extensions : StrMap) (line : String) : StrMap :=
  let line := strings.TrimSpace line
  let extensions :=
    if strings.HasPrefix line "Domain:" then
      extensions.set XDomainExtension (strings.TrimSpace (strings.TrimPrefix line "Domain:"))
    else extensions
  let extensions :=
    if strings.HasPrefix line "Category:" then
      extensions.set XDomainCategoryExtension
        (strings.TrimSpace (strings.TrimPrefix line "Category:"))
    else extensions
  let extensions :=
    if strings.HasPrefix line (XDomainExtension ++ ":") then
      extensions.set XDomainExtension
        (strings.TrimSpace (strings.TrimPrefix line (XDomainExtension ++ ":")))
    else extensions
  if strings.HasPrefix line (XDomainCategoryExtension ++ ":") then
    extensions.set XDomainCategoryExtension
      (strings.TrimSpace (strings.TrimPrefix line (XDomainCategoryExtension ++ ":")))
  else extensions

def getExtensions (pc : parser.Comment) : Option StrMap × Bool :=
  let extensions :=
    (removeInitialEmptyLinesAndAsterisks pc.Lines).foldl getExtensions.body []
  if extensions.length > 0 then (some extensions, true) else (none, false)

/-- The loop over `pcs` of `composeHeadComment`, from the current `extensions`; returns the
strings appended to `ss` and the final `extensions`. -/
def composeHeadComment.loop : List parser.Comment → StrMap → List String × StrMap
  | [], extensions => ([], extensions)
  | pc :: rest, extensions =>
    match getExtensions pc with
    | (some newExtensions, true) =>
      composeHeadComment.loop rest (extensions.setAll newExtensions)
    | _ =>
      let s := extractComment (some pc)
      let r := composeHeadComment.loop rest extensions
      (s :: r.1, r.2)

def composeHeadComment (pcs : List parser.Comment) (parentExtensions : Option StrMap) :
    String × StrMap :=
  let extensions := StrMap.setAll [] (parentExtensions.getD [])
  let r := composeHeadComment.loop pcs extensions
  (strings.Join r.1 "\n", r.2)

def composeHeadAndInlineComment (pcs : List parser.Comment) (pic : Option parser.Comment)
    (sep : String) (parentExtensions : Option StrMap) : String × StrMap :=
  let (head, extensions) := composeHeadComment pcs parentExtensions
  let inline := extractComment pic
  if head = "" then (inline, extensions)
  else if inline = "" then (head, extensions)
  else (head ++ sep ++ inline, extensions)

/-! ## Declaration walker (`types.go`, lines 138-180 and 277-440) -/

def extractPackageName (pp : parser.Proto) : String :=
  match pp.ProtoBody.findSome? (fun x =>
      match x with
      | .Package name _ => some name
      | _ => none) with
  | some name => name
  | none => "(missed-package)"

def Endpoint.validate (e : Endpoint) : Endpoint :=
  let e := { e with URLPath := "/" ++ e.PackageName ++ "/" ++ e.ServiceName ++ "/" ++ e.MethodName }
  let e := { e with HTTPMethod := "POST" }
  if e.Typ ≠ RPCType.Unary then { e with HTTPMethod := "GET" } else e

def extractRPCType (rpc : parser.RPC) : RPCType :=
  if rpc.RPCRequest.IsStream && rpc.RPCResponse.IsStream then RPCType.BidirectionalStreaming
  else if rpc.RPCRequest.IsStream then RPCType.ClientStreaming
  else if rpc.RPCResponse.IsStream then RPCType.ServerStreaming
  else RPCType.Unary

def findMessage (pp : parser.Proto) (mt : String) : Except Error parser.Message :=
  match pp.ProtoBody.findSome? (fun x =>
      match x with
      | .Message name body comments =>
        if name = mt then some (parser.Message.mk name body comments) else none
      | _ => none) with
  | some m => .ok m
  | none =>
    if mt = "google.protobuf.Empty" then
      .ok { MessageName := "google.protobuf.Empty", MessageBody := [], Comments := [] }
    else .error (Error.noMessage mt)

def composeFields (pm : parser.Message) (enclosing : String) : List Field :=
  pm.MessageBody.filterMap (fun x =>
    match x with
    | .Field fieldName typ isRepeated comments inlineComment =>
      some {
        Comment := (composeHeadAndInlineComment comments inlineComment " " none).1
        Name := fieldName
        TypeName := typ
        KeyTypeName := ""
        Repeat := isRepeated
        Enclosing := enclosing }
    | .MapField mapName keyType typ comments inlineComment =>
      some {
        Comment := (composeHeadAndInlineComment comments inlineComment " " none).1
        Name := mapName
        TypeName := typ
        KeyTypeName := keyType
        Repeat := false
        Enclosing := enclosing }
    | _ => none)

def extractRPCRequest (rr : parser.RPCRequest) (pp : parser.Proto) : Except Error Request :=
  match findMessage pp rr.MessageType with
  | .error err => .error (Error.wrap "find message" err)
  | .ok msg => .ok { Params := composeFields msg msg.MessageName, Typ := rr.MessageType }

def extractRPCResponse (rr : parser.RPCResponse) (pp : parser.Proto) : Except Error Response :=
  match findMessage pp rr.MessageType with
  | .error err => .error (Error.wrap "find message" err)
  | .ok msg => .ok { Params := composeFields msg msg.MessageName, Typ := rr.MessageType }

/-- The zero value of `Endpoint` (`var op Endpoint`). -/
def Endpoint.zero : Endpoint :=
  { PackageName := "", ServiceName := "", MethodName := "", URLPath := "", HTTPMethod := "",
    Comment := "", Markdown := "", Typ := RPCType.Unary,
    Request := { Params := [], Typ := "" }, Response := { Params := [], Typ := "" },
    Extensions := none }

/-- The body of the loop of `composeInterfaces` for the service-body element `x`, up to the
statement `op.validate()`: the endpoint to append, or the error returned. -/
def composeInterfaces.body (s : Service) (pp : parser.Proto) (parentExtensions : Option StrMap)
    (x : parser.Visitee) : Except Error Endpoint :=
  let op := { Endpoint.zero with PackageName := s.PackageName, ServiceName := s.ServiceName }
  match x with
  | .RPC rpcName rpcRequest rpcResponse comments inlineComment =>
    let c := composeHeadAndInlineComment comments inlineComment "\n" parentExtensions
    let op := { op with
      MethodName := rpcName
      Comment := c.1
      Extensions := some c.2
      Typ := extractRPCType ⟨rpcName, rpcRequest, rpcResponse, comments, inlineComment⟩ }
    match extractRPCRequest rpcRequest pp with
    | .error err => .error (Error.wrap "extract RPC request" err)
    | .ok request =>
      match extractRPCResponse rpcResponse pp with
      | .error err => .error (Error.wrap "extract RPC response" err)
      | .ok response =>
        .ok ({ op with Request := request, Response := response }).validate
  | _ => .ok op.validate

/-- The loop of `composeInterfaces` over the service body; the result is what the remaining
elements append to `eps`. -/
def composeInterfaces.loop (s : Service) (pp : parser.Proto) (parentExtensions : Option StrMap) :
    List parser.Visitee → Except Error (List Endpoint)
  | [] => .ok []
  | x :: rest =>
    match composeInterfaces.body s pp parentExtensions x with
    | .error err => .error err
    | .ok op =>
      match composeInterfaces.loop s pp parentExtensions rest with
      | .error err => .error err
      | .ok eps => .ok (op :: eps)

def composeInterfaces (s : Service) (ps : parser.Service) (pp : parser.Proto)
    (parentExtensions : Option StrMap) : Except Error (List Endpoint) :=
  composeInterfaces.loop s pp parentExtensions ps.ServiceBody

/-- Returns the receiver after the call together with the returned error (`none` for `nil`). -/
def ProtoFile.addService (pf : ProtoFile) (ps : parser.Service) (pp : parser.Proto)
    (protobufFileExtensions : Option StrMap) : ProtoFile × Option Error :=
  let c := composeHeadComment ps.Comments protobufFileExtensions
  let serviceExtensions := c.2
  let s : Service :=
    { Comment := c.1, PackageName := extractPackageName pp, ServiceName := ps.ServiceName,
      Operations := [] }
  match composeInterfaces s ps pp (some serviceExtensions) with
  | .error err => (pf, some (Error.wrap "compose interfaces" err))
  | .ok ops => ({ pf with Services := pf.Services ++ [{ s with Operations := ops }] }, none)

/-! ## Model assembler (`types.go`, lines 570-630) -/

def composeEnumFields (pe : parser.Enum) (enclosing : String) : List EnumField :=
  pe.EnumBody.filterMap (fun x =>
    match x with
    | .EnumField ident number comments inlineComment =>
      some {
        Comment := (composeHeadAndInlineComment comments inlineComment " " none).1
        Name := ident
        Val := number
        Enclosing := enclosing }
    | _ => none)

/-- The slice expression `s[1:]`; every argument it is applied to starts with `"."`. -/
def dropFirst (s : String) : String :=
  String.mk (s.data.drop 1)

def composeObject (pm : parser.Message) (enclosingName : String) : Object :=
  let enclosingName := dropFirst enclosingName
  let name := enclosingName ++ pm.MessageName
  { Comment := (composeHeadComment pm.Comments none).1
    Name := name
    Attrs := composeFields pm name }

def composeEnum (pe : parser.Enum) (enclosingName : String) : Enum :=
  let enclosingName := dropFirst enclosingName
  let name := enclosingName ++ pe.EnumName
  { Comment := (composeHeadComment pe.Comments none).1
    Name := name
    Constants := composeEnumFields pe name }

/-- The set `excludes` built at the start of `addObjectsAndEnums`, as the list of its keys. -/
def excludesOf (pf : ProtoFile) : List String :=
  pf.Services.flatMap (fun s =>
    s.Operations.flatMap (fun op => [op.Request.Typ, op.Response.Typ]))

mutual
/-- The body of the loop of the closure `extractMessagesAndEnums` for the element `x`. -/
def extractMessagesAndEnums.body (excludes : List String) (enclosingName : String) :
    parser.Visitee → ProtoFile → ProtoFile
  | .Enum enumName enumBody comments, pf =>
    let e := composeEnum ⟨enumName, enumBody, comments⟩ enclosingName
    { pf with Enums := pf.Enums ++ [e] }
  | .Message messageName messageBody comments, pf =>
    let o := composeObject ⟨messageName, messageBody, comments⟩ enclosingName
    let pf := if decide (o.Name ∈ excludes) then pf else { pf with Objects := pf.Objects ++ [o] }
    extractMessagesAndEnums excludes (enclosingName ++ messageName ++ ".") messageBody pf
  | _, pf => pf
/-- The closure `extractMessagesAndEnums` of `addObjectsAndEnums`. -/
def extractMessagesAndEnums (excludes : List String) (enclosingName : String) :
    List parser.Visitee → ProtoFile → ProtoFile
  | [], pf => pf
  | x :: rest, pf =>
    extractMessagesAndEnums excludes enclosingName rest
      (extractMessagesAndEnums.body excludes enclosingName x pf)
end

def ProtoFile.addObjectsAndEnums (pf : ProtoFile) (pp : parser.Proto) : ProtoFile :=
  extractMessagesAndEnums (excludesOf pf) "." pp.ProtoBody pf

/-- The first loop of `ComposeFrom`: the comment nodes of the proto body and of its package
statements. -/
def ComposeFrom.comments : List parser.Visitee → List parser.Comment
  | [] => []
  | .Comment c :: rest => c :: ComposeFrom.comments rest
  | .Package _ cs :: rest => cs ++ ComposeFrom.comments rest
  | _ :: rest => ComposeFrom.comments rest

/-- The second loop of `ComposeFrom`, over the proto body: adds every service, and stops at
the first error. -/
def ComposeFrom.loop (pp : parser.Proto) (protobufFileExtensions : Option StrMap) :
    List parser.Visitee → ProtoFile → ProtoFile × Option Error
  | [], pf => (pf, none)
  | .Service serviceName serviceBody comments :: rest, pf =>
    match pf.addService ⟨serviceName, serviceBody, comments⟩ pp protobufFileExtensions with
    | (pf, some err) => (pf, some (Error.wrap "add service" err))
    | (pf, none) => ComposeFrom.loop pp protobufFileExtensions rest pf
  | _ :: rest, pf => ComposeFrom.loop pp protobufFileExtensions rest pf

/-- Returns the receiver after the call together with the returned error (`none` for `nil`). -/
def ProtoFile.ComposeFrom (pf : ProtoFile) (pp : parser.Proto) : ProtoFile × Option Error :=
  let comments := ComposeFrom.comments pp.ProtoBody
  let protobufFileExtensions := (composeHeadComment comments none).2
  match ComposeFrom.loop pp (some protobufFileExtensions) pp.ProtoBody pf with
  | (pf, some err) => (pf, some err)
  | (pf, none) => (pf.addObjectsAndEnums pp, none)

/-! ## Auxiliary notions used in the statements -/

/-- The scope string `strings.Join(scopes[:i], ".")` tried at index `i` of the resolver loops. -/
def Field.scopeAt (f : Field) (i : Nat) : String :=
  strings.Join ((strings.Split f.Enclosing '.').take i) "."

/-- The qualified name formed from a scope string and a type name. -/
def qualifiedName (scope name : String) : String :=
  if scope ≠ "" then scope ++ "." ++ name else name

/-- The number of segments of the enclosing scope of `f`: the resolver loops run over the
indices `levels, levels - 1, ..., 0`. -/
def Field.levels (f : Field) : Nat :=
  (strings.Split f.Enclosing '.').length

/-- Both components of the map field `f` are found by `findQualified` at index `i`. -/
def Field.mapResolvesAt (f : Field) (pf : ProtoFile) (i : Nat) : Bool :=
  (f.findQualified pf (f.scopeAt i) f.KeyTypeName).2
    && (f.findQualified pf (f.scopeAt i) f.TypeName).2

/-- Some top-level message of the file is named `mt`. -/
def declaredTopLevel (pp : parser.Proto) (mt : String) : Prop :=
  ∃ body comments, parser.Visitee.Message mt body comments ∈ pp.ProtoBody

/-- The message name `mt` can be bound to no RPC body: it is neither the name of a top-level
message of the file nor the well-known empty-message sentinel. -/
def unbound (pp : parser.Proto) (mt : String) : Prop :=
  ¬ declaredTopLevel pp mt ∧ mt ≠ "google.protobuf.Empty"

/-- The service-body element `x` is an RPC whose request or response message is unbound. -/
def rpcUnbound (pp : parser.Proto) : parser.Visitee → Prop
  | .RPC _ rpcRequest rpcResponse _ _ =>
    unbound pp rpcRequest.MessageType ∨ unbound pp rpcResponse.MessageType
  | _ => False

/-- The proto-body element `x` is a service one of whose RPCs is unbound. -/
def serviceUnbound (pp : parser.Proto) : parser.Visitee → Prop
  | .Service _ serviceBody _ => ∃ x ∈ serviceBody, rpcUnbound pp x
  | _ => False

/-- The RPC declarations of a service body, in declaration order. -/
def rpcsOf (body : List parser.Visitee) : List parser.RPC :=
  body.filterMap (fun x =>
    match x with
    | .RPC rpcName rpcRequest rpcResponse comments inlineComment =>
      some ⟨rpcName, rpcRequest, rpcResponse, comments, inlineComment⟩
    | _ => none)

/-- The services of a proto body, in declaration order. -/
def servicesOf (body : List parser.Visitee) : List parser.Service :=
  body.filterMap (fun x =>
    match x with
    | .Service serviceName serviceBody comments => some ⟨serviceName, serviceBody, comments⟩
    | _ => none)

mutual
/-- The messages declared by the element `x` of a body nested in the messages `path`
(outermost first): the message itself, under its dotted fully-qualified name, followed by
the messages nested in it. -/
def declaredMessages.one (path : List String) :
    parser.Visitee → List (String × parser.Message)
  | .Message messageName messageBody comments =>
    (strings.Join (path ++ [messageName]) ".", ⟨messageName, messageBody, comments⟩)
      :: declaredMessages (path ++ [messageName]) messageBody
  | _ => []
/-- The messages declared in a body nested in the messages `path`, at every depth, in
depth-first declaration order (pre-order), each with its fully-qualified name. -/
def declaredMessages (path : List String) :
    List parser.Visitee → List (String × parser.Message)
  | [] => []
  | x :: rest => declaredMessages.one path x ++ declaredMessages path rest
end

mutual
/-- The enums declared by the element `x` of a body nested in the messages `path`. -/
def declaredEnums.one (path : List String) : parser.Visitee → List (String × parser.Enum)
  | .Enum enumName enumBody comments =>
    [(strings.Join (path ++ [enumName]) ".", ⟨enumName, enumBody, comments⟩)]
  | .Message messageName messageBody _ => declaredEnums (path ++ [messageName]) messageBody
  | _ => []
/-- The enums declared in a body nested in the messages `path`, at the top level or inside
messages at every depth, in depth-first declaration order, each with its fully-qualified
name. -/
def declaredEnums (path : List String) : List parser.Visitee → List (String × parser.Enum)
  | [] => []
  | x :: rest => declaredEnums.one path x ++ declaredEnums path rest
end

/-- The catalog entry of a declared message with the fully-qualified name `d.1`. -/
def objectOf (d : String × parser.Message) : Object :=
  { Comment := (composeHeadComment d.2.Comments none).1
    Name := d.1
    Attrs := composeFields d.2 d.1 }

/-- The catalog entry of a declared enum with the fully-qualified name `d.1`. -/
def enumOf (d : String × parser.Enum) : Enum :=
  { Comment := (composeHeadComment d.2.Comments none).1
    Name := d.1
    Constants := composeEnumFields d.2 d.1 }

/-- The argument `enclosingName` that `extractMessagesAndEnums` receives for a body nested in
the messages `path`: `"."` followed by `m ++ "."` for every enclosing message `m`. -/
def enclosingNameOf (path : List String) : String :=
  path.foldl (fun acc m => acc ++ m ++ ".") "."

/-- The fields of the model: the request and response parameters of every operation and the
attributes of every catalogued object. -/
def ProtoFile.fields (pf : ProtoFile) : List Field :=
  pf.Services.flatMap (fun s =>
      s.Operations.flatMap (fun op => op.Request.Params ++ op.Response.Params))
    ++ pf.Objects.flatMap (fun o => o.Attrs)

/-! ## Concrete declaration trees, fields and catalogs -/

/-- The tree of `package demo; service S { rpc M(Req) returns (R); } message Req { string
name = 1; }` for the response type name `R = resp`. -/
def demoTree (resp : String) : parser.Proto :=
  ⟨[.Package "demo" [],
    .Service "S" [.RPC "M" ⟨false, "Req"⟩ ⟨false, resp⟩ [] none] [],
    .Message "Req" [.Field "name" "string" false [] none] []]⟩

/-- The field `string name = 1;` of the message `Req`. -/
def demoField : Field :=
  { Comment := "", Name := "name", TypeName := "string", KeyTypeName := "", Repeat := false,
    Enclosing := "Req" }

/-- The endpoint `M` of the service `S` of `demoTree "google.protobuf.Empty"`. -/
def demoEndpoint : Endpoint :=
  { PackageName := "demo", ServiceName := "S", MethodName := "M", URLPath := "/demo/S/M",
    HTTPMethod := "POST", Comment := "", Markdown := "", Typ := RPCType.Unary,
    Request := { Params := [demoField], Typ := "Req" },
    Response := { Params := [], Typ := "google.protobuf.Empty" },
    Extensions := some [] }

/-- The tree of `package demo; service Good { rpc Ping(google.protobuf.Empty) returns
(google.protobuf.Empty); } service Bad { rpc Get(Missing) returns (google.protobuf.Empty); }
message Item {}`. -/
def partialTree : parser.Proto :=
  ⟨[.Package "demo" [],
    .Service "Good"
      [.RPC "Ping" ⟨false, "google.protobuf.Empty"⟩ ⟨false, "google.protobuf.Empty"⟩ [] none] [],
    .Service "Bad"
      [.RPC "Get" ⟨false, "Missing"⟩ ⟨false, "google.protobuf.Empty"⟩ [] none] [],
    .Message "Item" [] []]⟩

/-- The tree of `package demo; service S { option deprecated = true; rpc M(Req) returns
(google.protobuf.Empty); } message Req { string name = 1; }`; the option statement is a
service-body element that is not an RPC. -/
def optionTree : parser.Proto :=
  ⟨[.Package "demo" [],
    .Service "S" [.other, .RPC "M" ⟨false, "Req"⟩ ⟨false, "google.protobuf.Empty"⟩ [] none] [],
    .Message "Req" [.Field "name" "string" false [] none] []]⟩

/-- The service `S` of `optionTree`. -/
def optionService : parser.Service :=
  ⟨"S", [.other, .RPC "M" ⟨false, "Req"⟩ ⟨false, "google.protobuf.Empty"⟩ [] none], []⟩

/-- The tree of `package demo; service S { rpc M(Req) returns (google.protobuf.Empty); }
message Req { message Inner {} } message Other { message Req {} }`. -/
def nestedTree : parser.Proto :=
  ⟨[.Package "demo" [],
    .Service "S" [.RPC "M" ⟨false, "Req"⟩ ⟨false, "google.protobuf.Empty"⟩ [] none] [],
    .Message "Req" [.Message "Inner" [] []] [],
    .Message "Other" [.Message "Req" [] []] []]⟩

/-- The tree of `package demo; service S { rpc M(Req) returns (Req); } message Req {}
message Other { Req r = 1; }`. -/
def excludedRefTree : parser.Proto :=
  ⟨[.Package "demo" [],
    .Service "S" [.RPC "M" ⟨false, "Req"⟩ ⟨false, "Req"⟩ [] none] [],
    .Message "Req" [] [],
    .Message "Other" [.Field "r" "Req" false [] none] []]⟩

/-- The field `Req r = 1;` of the message `Other`. -/
def excludedRefField : Field :=
  { Comment := "", Name := "r", TypeName := "Req", KeyTypeName := "", Repeat := false,
    Enclosing := "Other" }


/-- The empty model a fresh `ProtoFile` starts from. -/
def ProtoFile.empty : ProtoFile :=
  { Services := [], Objects := [], Enums := [] }

/-- The tree of `message A { enum T {} message B { message T {} T f = 1; } }`. -/
def scopeChainTree : parser.Proto :=
  ⟨[.Message "A"
      [.Enum "T" [] [],
       .Message "B" [.Message "T" [] [], .Field "f" "T" false [] none] []] []]⟩

/-- The field `T f = 1;` declared in `A.B`. -/
def scopeChainField : Field :=
  { Comment := "", Name := "f", TypeName := "T", KeyTypeName := "", Repeat := false,
    Enclosing := "A.B" }

/-- A map field `map<K, V> m` declared in the message `A`. -/
def mapFieldKV : Field :=
  { Comment := "", Name := "m", TypeName := "V", KeyTypeName := "K", Repeat := false,
    Enclosing := "A" }

/-- Catalogs in which `A.K` is a message and `A.V` is an enum. -/
def catalogKeyObjectValueEnum : ProtoFile :=
  { Services := [], Objects := [⟨"", "A.K", []⟩], Enums := [⟨"", "A.V", []⟩] }

/-- Catalogs in which `A.K` is a message and nothing is named `V`. -/
def catalogKeyOnly : ProtoFile :=
  { Services := [], Objects := [⟨"", "A.K", []⟩], Enums := [] }

/-- Catalogs in which `A.K` and `A.V` are messages. -/
def catalogKeyValueObjects : ProtoFile :=
  { Services := [], Objects := [⟨"", "A.K", []⟩, ⟨"", "A.V", []⟩], Enums := [] }

/-- A field `string s` declared in the message `A`. -/
def scalarField : Field :=
  { Comment := "", Name := "s", TypeName := "string", KeyTypeName := "", Repeat := false,
    Enclosing := "A" }

/-- Catalogs that declare an enum and a message named `string`, at the top level and in `A`. -/
def catalogShadowingScalar : ProtoFile :=
  { Services := []
    Objects := [⟨"", "string", []⟩, ⟨"", "A.string", []⟩]
    Enums := [⟨"", "string", []⟩, ⟨"", "A.string", []⟩] }

/-- `DeclaredIn body path x`: the element `x` stands in the body that is reached from `body`
by descending through the nested messages named `path` (outermost first); with `path = []`
it is an element of `body` itself. -/
inductive DeclaredIn : List parser.Visitee → List String → parser.Visitee → Prop
  | here (body : List parser.Visitee) (x : parser.Visitee) :
      x ∈ body → DeclaredIn body [] x
  | nested (body : List parser.Visitee) (m : String) (b : List parser.Visitee)
      (c : List parser.Comment) (path : List String) (x : parser.Visitee) :
      parser.Visitee.Message m b c ∈ body → DeclaredIn b path x → DeclaredIn body (m :: path) x

/-- The enum fields of an enum body, in declaration order, as `(Ident, Number)`. -/
def enumFieldsOf (body : List parser.Visitee) : List (String × String) :=
  body.filterMap (fun x =>
    match x with
    | .EnumField ident number _ _ => some (ident, number)
    | _ => none)

/-- The tree of `message A {} message A {} enum E { X = 0; } enum E {}`: two top-level messages
and two top-level enums with the same names. -/
def duplicateTree : parser.Proto :=
  ⟨[.Message "A" [] [], .Message "A" [] [],
    .Enum "E" [.EnumField "X" "0" [] none] [], .Enum "E" [] []]⟩

/-- The body of `enum Kind { K0 = 0; K1 = 1; }`. -/
def kindBody : List parser.Visitee :=
  [.EnumField "K0" "0" [] none, .EnumField "K1" "1" [] none]

/-- The body of `message Inner { enum Kind { K0 = 0; K1 = 1; } Kind k = 1;
map<string, Kind> m = 2; }`. -/
def innerBody : List parser.Visitee :=
  [.Enum "Kind" kindBody [], .Field "k" "Kind" false [] none,
   .MapField "m" "string" "Kind" [] none]

/-- The body of `message Outer { message Inner { ... } }`. -/
def outerBody : List parser.Visitee :=
  [.Message "Inner" innerBody []]

/-- The tree of `message Outer { message Inner { enum Kind { K0 = 0; K1 = 1; } Kind k = 1;
map<string, Kind> m = 2; } }`. -/
def deepTree : parser.Proto :=
  ⟨[.Message "Outer" outerBody []]⟩

/-- A line that `removeInitialEmptyLinesAndAsterisks` drops while no line has been kept yet:
its trimmed form is empty or `"*"`, or the line starts with `"* "` or `"*\t"`. -/
def isLeadingDecoration (line : String) : Bool :=
  decide (strings.TrimSpace line = "") || strings.HasPrefix line "* "
    || decide (strings.TrimSpace line = "*") || strings.HasPrefix line "*\t"

/-- The extension that a stripped comment line sets, if any: the key `x-domain` for a line
whose trimmed form begins with `Domain:` or `x-domain:`, the key `x-category` for
`Category:` or `x-category:`, with the whitespace-trimmed remainder of the line as value. -/
def lineExtension (line : String) : Option (String × String) :=
  let line := strings.TrimSpace line
  if strings.HasPrefix line "Domain:" then
    some ("x-domain", strings.TrimSpace (strings.TrimPrefix line "Domain:"))
  else if strings.HasPrefix line "x-domain:" then
    some ("x-domain", strings.TrimSpace (strings.TrimPrefix line "x-domain:"))
  else if strings.HasPrefix line "Category:" then
    some ("x-category", strings.TrimSpace (strings.TrimPrefix line "Category:"))
  else if strings.HasPrefix line "x-category:" then
    some ("x-category", strings.TrimSpace (strings.TrimPrefix line "x-category:"))
  else none

/-- The extensions set by the lines of one comment node, in line order. -/
def nodeDirectives (pc : parser.Comment) : List (String × String) :=
  (removeInitialEmptyLinesAndAsterisks pc.Lines).filterMap lineExtension

/-- The extensions set by the lines of a list of comment nodes, in encounter order. -/
def directives (pcs : List parser.Comment) : List (String × String) :=
  pcs.flatMap nodeDirectives

/-- The value of the last entry of `ds` with the key `k`, if there is one. -/
def lastValue : List (String × String) → String → Option String
  | [], _ => none
  | d :: ds, k =>
    match lastValue ds k with
    | some v => some v
    | none => if d.1 = k then some d.2 else none

/-- A comment node with two `Domain:` lines. -/
def twoDomainsComment : parser.Comment :=
  ⟨["Domain: A", "Domain: B"]⟩

/-- A comment node whose second line, `*   Domain: x`, is stripped to `"  Domain: x"`. -/
def indentedDomainComment : parser.Comment :=
  ⟨["text", "*   Domain: x"]⟩

/-- The raw lines of the block comment ` * Hello`, ` *`, ` * world`. -/
def helloWorldLines : List String :=
  [" * Hello", " *", " * world"]

/-- Raw lines whose second line keeps two blanks of indentation after its `"* "` marker. -/
def indentedLines : List String :=
  ["a", "*   b"]

/-! ## Cross references and summaries (`types.go`, lines 343-359 and 565-568, 666-704;
`templates.go`, lines 162-168)

`strings.ToLower` of the Go standard library is not modelled: the functions that call it
take it as the parameter `ToLower`.  `strings.IndexByte` returns a byte offset; the model
returns the character offset of the same occurrence.  For the byte `'\n'`, which is never part
of a multi-byte character, the two offsets are `-1` together and `0` together, and slicing at
either gives the same text before and after the occurrence. -/

/-- Converts a type name to an href id. -/
def href (ToLower : String → String) (typename : String) : String :=
  strings.Join (strings.Split (ToLower typename) '.') ""

def Object.HRef (ToLower : String → String) (o : Object) : String :=
  "#тип-" ++ href ToLower o.Name

def Enum.HRef (ToLower : String → String) (e : Enum) : String :=
  "#enum-" ++ href ToLower e.Name

def Field.typeHRefBase (ToLower : String → String) (f : Field) (pf : ProtoFile) : String :=
  if f.isScalar.2 then f.isScalar.1
  else if (f.isEnum pf).2 then
    "[enum " ++ (f.isEnum pf).1 ++ "](#enum-" ++ href ToLower (f.isEnum pf).1 ++ ")"
  else if (f.isObject pf).2 then
    "[" ++ (f.isObject pf).1 ++ "](#тип-" ++ href ToLower (f.isObject pf).1 ++ ")"
  else if (f.isMap pf).2.2 then
    let typeNameKeyObject := (f.isMap pf).1
    let typeNameValueObject := (f.isMap pf).2.1
    let keyTypeString :=
      if typeNameKeyObject ∈ scalarTypes then typeNameKeyObject
      else "[" ++ typeNameKeyObject ++ "](#тип-" ++ href ToLower typeNameKeyObject ++ ")"
    let valueTypeString :=
      if typeNameValueObject ∈ scalarTypes then typeNameValueObject
      else "[" ++ typeNameValueObject ++ "](#тип-" ++ href ToLower typeNameValueObject ++ ")"
    "map<" ++ keyTypeString ++ ", " ++ valueTypeString ++ ">"
  else "(" ++ f.TypeName ++ ")"

/-- TypeHRef is `Typ` in addition to a href. -/
def Field.TypeHRef (ToLower : String → String) (f : Field) (pf : ProtoFile) : String :=
  if f.TypeName = "" then "(nil)"
  else if f.Repeat then "[]" ++ f.typeHRefBase ToLower pf else f.typeHRefBase ToLower pf

/-- The offset of the first occurrence of `c` in a character list, `-1` if there is none. -/
def strings.indexChars (c : Char) : List Char → Int
  | [] => -1
  | x :: xs =>
    if x = c then 0
    else if strings.indexChars c xs < 0 then -1 else strings.indexChars c xs + 1

/-- Go `strings.IndexByte(s, c)` for an ASCII byte `c`, as a character offset. -/
def strings.IndexByte (s : String) (c : Char) : Int :=
  strings.indexChars c s.data

def Endpoint.Summary (e : Endpoint) : String :=
  let summary := e.Comment
  let indexEOL := strings.IndexByte summary '\n'
  if indexEOL > 0 then String.mk (summary.data.take indexEOL.toNat) else summary

def Endpoint.Description (e : Endpoint) : String :=
  let summary := e.Comment
  let indexEOL := strings.IndexByte summary '\n'
  if indexEOL > 0 then String.mk (summary.data.drop (indexEOL + 1).toNat) else summary

/-- A field with an empty type name and the repeated flag set. -/
def untypedRepeatedField : Field :=
  { Comment := "", Name := "f", TypeName := "", KeyTypeName := "", Repeat := true,
    Enclosing := "" }

/-- A field with an empty type name, not repeated. -/
def untypedField : Field :=
  { Comment := "", Name := "f", TypeName := "", KeyTypeName := "", Repeat := false,
    Enclosing := "" }

/-- Catalogs that hold an object with the empty name. -/
def catalogEmptyName : ProtoFile :=
  { Services := [], Objects := [⟨"", "", []⟩], Enums := [] }

/-- The field `Kind k = 1;` declared in `Outer.Inner` of `deepTree`. -/
def kindField : Field :=
  { Comment := "", Name := "k", TypeName := "Kind", KeyTypeName := "", Repeat := false,
    Enclosing := "Outer.Inner" }

/-- An endpoint whose comment is `"Gets an item.\nReturns NotFound if absent."`. -/
def commentedEndpoint : Endpoint :=
  { Endpoint.zero with Comment := "Gets an item.\nReturns NotFound if absent." }

/-! ## Lemmas on strings -/

theorem strings.splitChars_ne_nil (sep : Char) (cs : List Char) :
    strings.splitChars sep cs ≠ [] := by
  induction cs with
  | nil => simp [strings.splitChars]
  | cons c cs ih =>
    unfold strings.splitChars
    split
    · simp
    · split <;> simp

theorem strings.mk_cons_append (c : Char) (h : List Char) (r : String) :
    String.mk (c :: h) ++ r = String.mk (c :: (String.mk h ++ r).data) := by
  apply String.ext
  simp [String.data_append]

theorem strings.Join_splitChars (cs : List Char) :
    strings.Join ((strings.splitChars '.' cs).map String.mk) "." = String.mk cs := by
  induction cs with
  | nil => rfl
  | cons c cs ih =>
    unfold strings.splitChars
    split
    · rename_i hc
      subst hc
      cases hsp : strings.splitChars '.' cs with
      | nil => exact absurd hsp (strings.splitChars_ne_nil _ _)
      | cons h t =>
        rw [hsp] at ih
        simp only [List.map_cons] at ih ⊢
        simp only [strings.Join]
        rw [ih]
        apply String.ext
        simp [String.data_append]
    · cases hsp : strings.splitChars '.' cs with
      | nil => exact absurd hsp (strings.splitChars_ne_nil _ _)
      | cons h t =>
        rw [hsp] at ih
        cases t with
        | nil =>
          simp only [List.map_cons, List.map_nil, strings.Join] at ih ⊢
          injection ih with ih
          rw [ih]
        | cons b r =>
          simp only [List.map_cons, strings.Join] at ih ⊢
          rw [String.append_assoc, strings.mk_cons_append, ← String.append_assoc, ih]

theorem strings.Join_Split (s : String) : strings.Join (strings.Split s '.') "." = s := by
  unfold strings.Split
  rw [strings.Join_splitChars]

theorem strings.splitChars_cons_of_ne (sep c : Char) (cs h : List Char) (t : List (List Char))
    (hc : c ≠ sep) (hsp : strings.splitChars sep cs = h :: t) :
    strings.splitChars sep (c :: cs) = (c :: h) :: t := by
  simp [strings.splitChars, hc, hsp]

theorem strings.splitChars_of_not_mem (sep : Char) (b : List Char) (hb : sep ∉ b) :
    strings.splitChars sep b = [b] := by
  induction b with
  | nil => rfl
  | cons c cs ih =>
    have hc : c ≠ sep := fun h => hb (by simp [h])
    have hcs : sep ∉ cs := fun h => hb (by simp [h])
    exact strings.splitChars_cons_of_ne _ _ _ _ _ hc (ih hcs)

theorem strings.splitChars_append (sep : Char) (a rest : List Char) (ha : sep ∉ a) :
    strings.splitChars sep (a ++ sep :: rest) = a :: strings.splitChars sep rest := by
  induction a with
  | nil => simp [strings.splitChars]
  | cons c cs ih =>
    have hc : c ≠ sep := fun h => ha (by simp [h])
    have hcs : sep ∉ cs := fun h => ha (by simp [h])
    rw [List.cons_append]
    exact strings.splitChars_cons_of_ne _ _ _ _ _ hc (ih hcs)

theorem strings.Split_two (A B : String) (hA : '.' ∉ A.data) (hB : '.' ∉ B.data) :
    strings.Split (A ++ "." ++ B) '.' = [A, B] := by
  unfold strings.Split
  have h : (A ++ "." ++ B).data = A.data ++ '.' :: B.data := by
    simp [String.data_append]
  rw [h, strings.splitChars_append _ _ _ hA, strings.splitChars_of_not_mem _ _ hB]
  rfl

theorem strings.append_dot_ne_empty (A B : String) : A ++ "." ++ B ≠ "" := by
  intro h
  have h1 := congrArg String.length h
  have h2 : ".".length = 1 := rfl
  have h3 : "".length = 0 := rfl
  rw [String.length_append, String.length_append, h2, h3] at h1
  omega

/-! ## Lemmas on the resolver loops -/

theorem isEnum_body_eq (f : Field) (pf : ProtoFile) (scopes : List String) (i : Nat)
    (next : String × Bool) :
    Field.isEnum.body f pf scopes i next =
      if ∃ e ∈ pf.Enums, e.Name = qualifiedName (strings.Join (scopes.take i) ".") f.TypeName
      then (qualifiedName (strings.Join (scopes.take i) ".") f.TypeName, true) else next := by
  unfold Field.isEnum.body
  simp only []
  split
  · rename_i e he
    have h1 := List.find?_some he
    have h2 := List.mem_of_find?_eq_some he
    simp only [decide_eq_true_eq] at h1
    rw [if_pos ⟨e, h2, by rw [← h1]; rfl⟩, ← h1]
    rfl
  · rename_i he
    rw [List.find?_eq_none] at he
    rw [if_neg]
    rintro ⟨e, hmem, hname⟩
    apply he e hmem
    simp only [decide_eq_true_eq]
    rw [hname]
    rfl

theorem isObject_body_eq (f : Field) (pf : ProtoFile) (scopes : List String) (i : Nat)
    (next : String × Bool) :
    Field.isObject.body f pf scopes i next =
      if ∃ o ∈ pf.Objects, o.Name = qualifiedName (strings.Join (scopes.take i) ".") f.TypeName
      then (qualifiedName (strings.Join (scopes.take i) ".") f.TypeName, true) else next := by
  unfold Field.isObject.body
  simp only []
  split
  · rename_i o ho
    have h1 := List.find?_some ho
    have h2 := List.mem_of_find?_eq_some ho
    simp only [decide_eq_true_eq] at h1
    rw [if_pos ⟨o, h2, by rw [← h1]; rfl⟩, ← h1]
    rfl
  · rename_i ho
    rw [List.find?_eq_none] at ho
    rw [if_neg]
    rintro ⟨o, hmem, hname⟩
    apply ho o hmem
    simp only [decide_eq_true_eq]
    rw [hname]
    rfl

theorem findQualified_eq (f : Field) (pf : ProtoFile) (scope name : String) :
    f.findQualified pf scope name =
      if ∃ o ∈ pf.Objects, o.Name = qualifiedName scope name
      then (qualifiedName scope name, true) else ("", false) := by
  unfold Field.findQualified
  simp only []
  by_cases h : ∃ o ∈ pf.Objects, o.Name = qualifiedName scope name
  · rw [if_pos h, if_pos]
    · rfl
    · obtain ⟨o, hmem, hname⟩ := h
      rw [List.any_eq_true]
      exact ⟨o, hmem, by simp only [decide_eq_true_eq]; rw [hname]; rfl⟩
  · rw [if_neg h, if_neg]
    rw [List.any_eq_true]
    rintro ⟨o, hmem, hname⟩
    simp only [decide_eq_true_eq] at hname
    exact h ⟨o, hmem, by rw [← hname]; rfl⟩

/-- The enum loop fails exactly when no candidate of an index `j ≤ i` names an enum. -/
theorem isEnum_loop_false_iff (f : Field) (pf : ProtoFile) (scopes : List String)
    (i : Nat) :
    (Field.isEnum.loop f pf scopes i).2 = false ↔
      ∀ j, j ≤ i → ∀ e ∈ pf.Enums,
        e.Name ≠ qualifiedName (strings.Join (scopes.take j) ".") f.TypeName := by
  induction i with
  | zero =>
    unfold Field.isEnum.loop
    rw [isEnum_body_eq]
    constructor
    · intro h j hj e he hname
      have hj0 : j = 0 := by omega
      subst hj0
      rw [if_pos ⟨e, he, hname⟩] at h
      simp at h
    · intro h
      rw [if_neg]
      rintro ⟨e, he, hname⟩
      exact h 0 (le_refl _) e he hname
  | succ i ih =>
    unfold Field.isEnum.loop
    rw [isEnum_body_eq]
    constructor
    · intro h j hj e he hname
      by_cases hc : ∃ e ∈ pf.Enums,
          e.Name = qualifiedName (strings.Join (scopes.take (i + 1)) ".") f.TypeName
      · rw [if_pos hc] at h
        simp at h
      · rw [if_neg hc] at h
        by_cases hji : j = i + 1
        · subst hji
          exact hc ⟨e, he, hname⟩
        · exact ih.mp h j (by omega) e he hname
    · intro h
      rw [if_neg]
      · exact ih.mpr (fun j hj => h j (by omega))
      · rintro ⟨e, he, hname⟩
        exact h (i + 1) (le_refl _) e he hname

/-- A successful enum loop returns the name of a catalogued enum. -/
theorem isEnum_loop_true (f : Field) (pf : ProtoFile) (scopes : List String) (i : Nat)
    (h : (Field.isEnum.loop f pf scopes i).2 = true) :
    ∃ e ∈ pf.Enums, (Field.isEnum.loop f pf scopes i).1 = e.Name := by
  induction i with
  | zero =>
    unfold Field.isEnum.loop at h ⊢
    rw [isEnum_body_eq] at h ⊢
    split at h
    · rename_i hc
      rw [if_pos hc]
      obtain ⟨e, he, hname⟩ := hc
      exact ⟨e, he, hname.symm⟩
    · simp at h
  | succ i ih =>
    unfold Field.isEnum.loop at h ⊢
    rw [isEnum_body_eq] at h ⊢
    split at h
    · rename_i hc
      rw [if_pos hc]
      obtain ⟨e, he, hname⟩ := hc
      exact ⟨e, he, hname.symm⟩
    · rename_i hc
      rw [if_neg hc]
      exact ih h

/-- The object loop fails exactly when no candidate of an index `j ≤ i` names an object. -/
theorem isObject_loop_false_iff (f : Field) (pf : ProtoFile) (scopes : List String)
    (i : Nat) :
    (Field.isObject.loop f pf scopes i).2 = false ↔
      ∀ j, j ≤ i → ∀ o ∈ pf.Objects,
        o.Name ≠ qualifiedName (strings.Join (scopes.take j) ".") f.TypeName := by
  induction i with
  | zero =>
    unfold Field.isObject.loop
    rw [isObject_body_eq]
    constructor
    · intro h j hj o ho hname
      have hj0 : j = 0 := by omega
      subst hj0
      rw [if_pos ⟨o, ho, hname⟩] at h
      simp at h
    · intro h
      rw [if_neg]
      rintro ⟨o, ho, hname⟩
      exact h 0 (le_refl _) o ho hname
  | succ i ih =>
    unfold Field.isObject.loop
    rw [isObject_body_eq]
    constructor
    · intro h j hj o ho hname
      by_cases hc : ∃ o ∈ pf.Objects,
          o.Name = qualifiedName (strings.Join (scopes.take (i + 1)) ".") f.TypeName
      · rw [if_pos hc] at h
        simp at h
      · rw [if_neg hc] at h
        by_cases hji : j = i + 1
        · subst hji
          exact hc ⟨o, ho, hname⟩
        · exact ih.mp h j (by omega) o ho hname
    · intro h
      rw [if_neg]
      · exact ih.mpr (fun j hj => h j (by omega))
      · rintro ⟨o, ho, hname⟩
        exact h (i + 1) (le_refl _) o ho hname

/-- A successful object loop returns the name of a catalogued object. -/
theorem isObject_loop_true (f : Field) (pf : ProtoFile) (scopes : List String) (i : Nat)
    (h : (Field.isObject.loop f pf scopes i).2 = true) :
    ∃ o ∈ pf.Objects, (Field.isObject.loop f pf scopes i).1 = o.Name := by
  induction i with
  | zero =>
    unfold Field.isObject.loop at h ⊢
    rw [isObject_body_eq] at h ⊢
    split at h
    · rename_i hc
      rw [if_pos hc]
      obtain ⟨o, ho, hname⟩ := hc
      exact ⟨o, ho, hname.symm⟩
    · simp at h
  | succ i ih =>
    unfold Field.isObject.loop at h ⊢
    rw [isObject_body_eq] at h ⊢
    split at h
    · rename_i hc
      rw [if_pos hc]
      obtain ⟨o, ho, hname⟩ := hc
      exact ⟨o, ho, hname.symm⟩
    · rename_i hc
      rw [if_neg hc]
      exact ih h

theorem isMap_body_eq (f : Field) (pf : ProtoFile) (scopes : List String) (i : Nat)
    (next : String × String × Bool) :
    Field.isMap.body f pf scopes i next =
      if ((f.findQualified pf (strings.Join (scopes.take i) ".") f.KeyTypeName).2
          && (f.findQualified pf (strings.Join (scopes.take i) ".") f.TypeName).2) = true
      then (qualifiedName (strings.Join (scopes.take i) ".") f.KeyTypeName,
            qualifiedName (strings.Join (scopes.take i) ".") f.TypeName, true)
      else next := by
  unfold Field.isMap.body
  simp only [findQualified_eq]
  by_cases hk : ∃ o ∈ pf.Objects,
      o.Name = qualifiedName (strings.Join (scopes.take i) ".") f.KeyTypeName
  · by_cases hv : ∃ o ∈ pf.Objects,
        o.Name = qualifiedName (strings.Join (scopes.take i) ".") f.TypeName
    · simp [if_pos hk, if_pos hv]
    · simp [if_pos hk, if_neg hv]
  · simp [if_neg hk]

theorem isMap_loop_ok (f : Field) (pf : ProtoFile) (scopes : List String) (i : Nat) :
    (Field.isMap.loop f pf scopes i).2.2 = true := by
  induction i with
  | zero =>
    unfold Field.isMap.loop
    rw [isMap_body_eq]
    split <;> rfl
  | succ i ih =>
    unfold Field.isMap.loop
    rw [isMap_body_eq]
    split
    · rfl
    · exact ih

theorem isMap_loop_verbatim (f : Field) (pf : ProtoFile) (scopes : List String) (i : Nat)
    (h : ∀ j, j ≤ i →
      ((f.findQualified pf (strings.Join (scopes.take j) ".") f.KeyTypeName).2
        && (f.findQualified pf (strings.Join (scopes.take j) ".") f.TypeName).2) = false) :
    Field.isMap.loop f pf scopes i = (f.KeyTypeName, f.TypeName, true) := by
  induction i with
  | zero =>
    unfold Field.isMap.loop
    rw [isMap_body_eq, h 0 (le_refl _)]
    simp
  | succ i ih =>
    unfold Field.isMap.loop
    rw [isMap_body_eq, h (i + 1) (le_refl _)]
    simp only [Bool.false_eq_true, if_false]
    exact ih (fun j hj => h j (by omega))

theorem isMap_loop_innermost (f : Field) (pf : ProtoFile) (scopes : List String)
    (k i : Nat) (hki : k ≤ i)
    (hres : ((f.findQualified pf (strings.Join (scopes.take k) ".") f.KeyTypeName).2
        && (f.findQualified pf (strings.Join (scopes.take k) ".") f.TypeName).2) = true)
    (hinner : ∀ j, k < j → j ≤ i →
      ((f.findQualified pf (strings.Join (scopes.take j) ".") f.KeyTypeName).2
        && (f.findQualified pf (strings.Join (scopes.take j) ".") f.TypeName).2) = false) :
    Field.isMap.loop f pf scopes i =
      (qualifiedName (strings.Join (scopes.take k) ".") f.KeyTypeName,
       qualifiedName (strings.Join (scopes.take k) ".") f.TypeName, true) := by
  induction i with
  | zero =>
    have hk0 : k = 0 := by omega
    subst hk0
    unfold Field.isMap.loop
    rw [isMap_body_eq, if_pos hres]
  | succ i ih =>
    unfold Field.isMap.loop
    rw [isMap_body_eq]
    by_cases hk : k = i + 1
    · subst hk
      rw [if_pos hres]
    · rw [hinner (i + 1) (by omega) (le_refl _)]
      simp only [Bool.false_eq_true, if_false]
      exact ih (by omega) (fun j hj1 hj2 => hinner j hj1 (by omega))

theorem strings.head_data_append (a b : String) (c : Char) (cs : List Char)
    (h : a.data = c :: cs) : (a ++ b).data.head? = some c := by
  rw [String.data_append, h]
  rfl

/-- The rendering of a field with a key type goes through `isMap`. -/
theorem typeBase_of_key (f : Field) (pf : ProtoFile) (hkey : f.KeyTypeName ≠ "") :
    f.TypeBase pf = "map <" ++ (f.isMap pf).1 ++ ", " ++ (f.isMap pf).2.1 ++ ">" := by
  have hok : (f.isMap pf).2.2 = true := by
    unfold Field.isMap
    rw [if_neg hkey]
    exact isMap_loop_ok _ _ _ _
  unfold Field.TypeBase
  have h1 : f.isScalar = ("", false) := by
    unfold Field.isScalar
    rw [if_pos hkey]
  have h2 : f.isEnum pf = ("", false) := by
    unfold Field.isEnum
    rw [if_pos hkey]
  have h3 : f.isObject pf = ("", false) := by
    unfold Field.isObject
    rw [if_pos hkey]
  rw [h1, h2, h3, hok]
  simp

/-! ## Claims on the type resolver -/

/-- C1 (counterexample): in the model assembled from
`message A { enum T {} message B { message T {} T f = 1; } }` the name `T` is declared as the
message `A.B.T` and as the enum `A.T`, and the field `f` of `A.B` resolves to the outer
`enum A.T`, not to the innermost `A.B.T`. -/
theorem typeBase_outer_enum_beats_inner_message :
    (ProtoFile.empty.ComposeFrom scopeChainTree).2 = none
      ∧ (ProtoFile.empty.ComposeFrom scopeChainTree).1.Objects.map (fun o => o.Name)
          = ["A", "A.B", "A.B.T"]
      ∧ (ProtoFile.empty.ComposeFrom scopeChainTree).1.Enums.map (fun e => e.Name) = ["A.T"]
      ∧ (ProtoFile.empty.ComposeFrom scopeChainTree).1.Objects.map (fun o => o.Attrs)
          = [[], [scopeChainField], []]
      ∧ scopeChainField.TypeBase (ProtoFile.empty.ComposeFrom scopeChainTree).1 = "enum A.T"
      ∧ scopeChainField.TypeBase (ProtoFile.empty.ComposeFrom scopeChainTree).1
          ≠ "message A.B.T"
      ∧ scopeChainField.TypeBase (ProtoFile.empty.ComposeFrom scopeChainTree).1
          ≠ "enum A.B.T" := by
  decide

/-- C1 (amended): for a field with an empty key type and a non-scalar type name `T` declared
in the scope `A.B`, `TypeBase` resolves to `A.B.T` when `A.B.T` is an enum, and also when
`A.B.T` is a message and no enum is named `A.B.T`, `A.T` or `T`. -/
theorem typeBase_innermost_scope (f : Field) (pf : ProtoFile) (A B T : String)
    (hA : '.' ∉ A.data) (hB : '.' ∉ B.data)
    (hkey : f.KeyTypeName = "") (hT : f.TypeName = T) (hscalar : T ∉ scalarTypes)
    (henc : f.Enclosing = A ++ "." ++ B) :
    ((∃ e ∈ pf.Enums, e.Name = A ++ "." ++ B ++ "." ++ T) →
        f.TypeBase pf = "enum " ++ (A ++ "." ++ B ++ "." ++ T))
      ∧ ((∃ o ∈ pf.Objects, o.Name = A ++ "." ++ B ++ "." ++ T) →
          (∀ e ∈ pf.Enums, e.Name ≠ A ++ "." ++ B ++ "." ++ T ∧ e.Name ≠ A ++ "." ++ T
            ∧ e.Name ≠ T) →
          f.TypeBase pf = "message " ++ (A ++ "." ++ B ++ "." ++ T)) := by
  have hsplit : strings.Split f.Enclosing '.' = [A, B] := by
    rw [henc]
    exact strings.Split_two A B hA hB
  have hsc : f.isScalar = (T, false) := by
    unfold Field.isScalar
    simp [hkey, hT, hscalar]
  have hq2 : qualifiedName (strings.Join ([A, B].take 2) ".") f.TypeName
      = A ++ "." ++ B ++ "." ++ T := by
    unfold qualifiedName
    rw [hT]
    simp only [List.take, strings.Join]
    rw [if_pos (strings.append_dot_ne_empty A B)]
  have hq1 : qualifiedName (strings.Join ([A, B].take 1) ".") f.TypeName = A ++ "." ++ T
      ∨ qualifiedName (strings.Join ([A, B].take 1) ".") f.TypeName = T := by
    unfold qualifiedName
    rw [hT]
    simp only [List.take, strings.Join]
    by_cases hA0 : A = ""
    · right
      simp [hA0]
    · left
      simp [hA0]
  have hq0 : qualifiedName (strings.Join ([A, B].take 0) ".") f.TypeName = T := by
    unfold qualifiedName
    rw [hT]
    simp [strings.Join]
  have henum : f.isEnum pf = Field.isEnum.loop f pf [A, B] 2 := by
    unfold Field.isEnum
    simp [hkey, hsplit]
  have hobj : f.isObject pf = Field.isObject.loop f pf [A, B] 2 := by
    unfold Field.isObject
    simp [hkey, hsplit]
  constructor
  · intro he
    have h : f.isEnum pf = (A ++ "." ++ B ++ "." ++ T, true) := by
      rw [henum]
      unfold Field.isEnum.loop
      rw [isEnum_body_eq, hq2, if_pos he]
    unfold Field.TypeBase
    rw [hsc, h]
    simp
  · intro ho hne
    have h1 : (f.isEnum pf).2 = false := by
      rw [henum, isEnum_loop_false_iff]
      intro j hj e he
      have hj' : j = 2 ∨ j = 1 ∨ j = 0 := by omega
      rcases hj' with hj' | hj' | hj'
      · subst hj'
        rw [hq2]
        exact (hne e he).1
      · subst hj'
        rcases hq1 with h | h
        · rw [h]
          exact (hne e he).2.1
        · rw [h]
          exact (hne e he).2.2
      · subst hj'
        rw [hq0]
        exact (hne e he).2.2
    have h2 : f.isObject pf = (A ++ "." ++ B ++ "." ++ T, true) := by
      rw [hobj]
      unfold Field.isObject.loop
      rw [isObject_body_eq, hq2, if_pos ho]
    unfold Field.TypeBase
    rw [hsc, h1, h2]
    simp

/-- C1 (witness): with the messages `A.B.T` and `A.T` and no enum, the field `T f` of `A.B`
resolves to the innermost `A.B.T`. -/
theorem typeBase_innermost_scope_witness :
    scopeChainField.TypeBase ⟨[], [⟨"", "A.B.T", []⟩, ⟨"", "A.T", []⟩], []⟩
      = "message " ++ ("A" ++ "." ++ "B" ++ "." ++ "T") :=
  (typeBase_innermost_scope scopeChainField ⟨[], [⟨"", "A.B.T", []⟩, ⟨"", "A.T", []⟩], []⟩
    "A" "B" "T" (by decide) (by decide) (by decide) (by decide) (by decide) (by decide)).2
    ⟨⟨"", "A.B.T", []⟩, by decide, by decide⟩ (by decide)

/-- C8 (counterexample): for the field `map<K, V> m` of the message `A`, with `A.K` in the
object catalog and `A.V` in the enum catalog, both candidates of the scope `A` are catalogued,
yet `isMap` returns the raw pair `(K, V)` and not `(A.K, A.V)`: `findQualified` consults the
object catalog only. -/
theorem isMap_ignores_enum_catalog :
    mapFieldKV.scopeAt 1 = "A"
      ∧ qualifiedName (mapFieldKV.scopeAt 1) mapFieldKV.KeyTypeName
          ∈ catalogKeyObjectValueEnum.Objects.map (fun o => o.Name)
      ∧ qualifiedName (mapFieldKV.scopeAt 1) mapFieldKV.TypeName
          ∈ catalogKeyObjectValueEnum.Enums.map (fun e => e.Name)
      ∧ mapFieldKV.isMap catalogKeyObjectValueEnum = ("K", "V", true)
      ∧ mapFieldKV.isMap catalogKeyObjectValueEnum ≠ ("A.K", "A.V", true) := by
  decide

/-- C8 (amended): for a field with a non-empty key type, if at some index `i` of the scope
loop both the key and the value candidate are names of the object catalog, and at no deeper
index both are, then `isMap` returns the two qualified names of index `i`; an index at which
at most one of the two is found is passed over. -/
theorem isMap_innermost_common_level (f : Field) (pf : ProtoFile) (i : Nat)
    (hkey : f.KeyTypeName ≠ "") (hi : i ≤ f.levels)
    (hres : f.mapResolvesAt pf i = true)
    (hinner : ∀ j, i < j → j ≤ f.levels → f.mapResolvesAt pf j = false) :
    f.isMap pf = (qualifiedName (f.scopeAt i) f.KeyTypeName,
        qualifiedName (f.scopeAt i) f.TypeName, true)
      ∧ (∃ o ∈ pf.Objects, o.Name = qualifiedName (f.scopeAt i) f.KeyTypeName)
      ∧ (∃ o ∈ pf.Objects, o.Name = qualifiedName (f.scopeAt i) f.TypeName) := by
  refine ⟨?_, ?_, ?_⟩
  · unfold Field.isMap
    rw [if_neg hkey]
    exact isMap_loop_innermost f pf _ i _ hi hres hinner
  · unfold Field.mapResolvesAt at hres
    rw [Bool.and_eq_true, findQualified_eq] at hres
    by_contra hc
    rw [if_neg hc] at hres
    simp at hres
  · unfold Field.mapResolvesAt at hres
    rw [Bool.and_eq_true, findQualified_eq, findQualified_eq] at hres
    by_contra hc
    rw [if_neg hc] at hres
    simp at hres

/-- C8 (witness): with the messages `A.K` and `A.V` catalogued, the field `map<K, V> m` of `A`
resolves at the scope `A`. -/
theorem isMap_innermost_common_level_witness :
    mapFieldKV.isMap catalogKeyValueObjects = ("A.K", "A.V", true) :=
  (isMap_innermost_common_level mapFieldKV catalogKeyValueObjects 1
    (by decide) (by decide) (by decide)
    (fun j h1 h2 => absurd (show j ≤ 1 from h2) (by omega))).1

/-- C9 (counterexample): for the field `map<K, V> m` of the message `A`, with `A.K` the only
catalogued name, the key resolves at the scope `A` and the value at no scope level, and the
rendering carries the raw key `K`, not the resolved key `A.K`. -/
theorem typeBase_map_fallback_keeps_raw_key :
    mapFieldKV.findQualified catalogKeyOnly (mapFieldKV.scopeAt 1) mapFieldKV.KeyTypeName
        = ("A.K", true)
      ∧ (∀ i, i ≤ mapFieldKV.levels →
          (mapFieldKV.findQualified catalogKeyOnly (mapFieldKV.scopeAt i)
            mapFieldKV.TypeName).2 = false)
      ∧ mapFieldKV.TypeBase catalogKeyOnly = "map <K, V>"
      ∧ mapFieldKV.TypeBase catalogKeyOnly ≠ "map <A.K, V>"
      ∧ mapFieldKV.TypeBase catalogKeyOnly ≠ "map<A.K, V>" := by
  decide

/-- C9 (amended): for every map field whose value type is found at no scope level, whether
or not its key type is found at some level, `TypeBase` is the map rendering of the raw key
type name and the raw value type name, `map <KeyTypeName, TypeName>`; no error is raised. -/
theorem typeBase_map_value_unresolved (f : Field) (pf : ProtoFile)
    (hkey : f.KeyTypeName ≠ "")
    (hval : ∀ i, i ≤ f.levels → (f.findQualified pf (f.scopeAt i) f.TypeName).2 = false) :
    f.TypeBase pf = "map <" ++ f.KeyTypeName ++ ", " ++ f.TypeName ++ ">" := by
  have h : f.isMap pf = (f.KeyTypeName, f.TypeName, true) := by
    unfold Field.isMap
    rw [if_neg hkey]
    apply isMap_loop_verbatim
    intro j hj
    have := hval j hj
    unfold Field.scopeAt at this
    rw [this]
    simp
  rw [typeBase_of_key f pf hkey, h]

/-- C9 (witness): the field `map<K, V> m` of `A`, with only `A.K` catalogued. -/
theorem typeBase_map_value_unresolved_witness :
    mapFieldKV.TypeBase catalogKeyOnly = "map <" ++ "K" ++ ", " ++ "V" ++ ">" :=
  typeBase_map_value_unresolved mapFieldKV catalogKeyOnly (by decide) (by decide)

/-- C10: for a field with a non-empty key type and any catalogs, `isMap` returns `ok = true`;
when no index of the scope loop finds both components it returns `(KeyTypeName, TypeName)`
verbatim; and `TypeBase` is the map rendering of the pair returned by `isMap`, never the
opaque form `(TypeName)`. -/
theorem isMap_never_fails (f : Field) (pf : ProtoFile) (hkey : f.KeyTypeName ≠ "") :
    (f.isMap pf).2.2 = true
      ∧ ((∀ i, i ≤ f.levels → f.mapResolvesAt pf i = false) →
          f.isMap pf = (f.KeyTypeName, f.TypeName, true))
      ∧ f.TypeBase pf = "map <" ++ (f.isMap pf).1 ++ ", " ++ (f.isMap pf).2.1 ++ ">"
      ∧ f.TypeBase pf ≠ "(" ++ f.TypeName ++ ")" := by
  refine ⟨?_, ?_, typeBase_of_key f pf hkey, ?_⟩
  · unfold Field.isMap
    rw [if_neg hkey]
    exact isMap_loop_ok _ _ _ _
  · intro h
    unfold Field.isMap
    rw [if_neg hkey]
    exact isMap_loop_verbatim f pf _ _ h
  · rw [typeBase_of_key f pf hkey]
    intro heq
    have h1 : ("map <" ++ (f.isMap pf).1 ++ ", " ++ (f.isMap pf).2.1 ++ ">").data.head?
        = some 'm' := by
      rw [String.append_assoc, String.append_assoc, String.append_assoc]
      exact strings.head_data_append _ _ 'm' ['a', 'p', ' ', '<'] rfl
    have h2 : ("(" ++ f.TypeName ++ ")").data.head? = some '(' := by
      rw [String.append_assoc]
      exact strings.head_data_append _ _ '(' [] rfl
    rw [heq, h2] at h1
    exact absurd h1 (by decide)

/-- C10 (witness): the field `map<K, V> m` of `A` against catalogs holding only `A.K`. -/
theorem isMap_never_fails_witness :
    (mapFieldKV.isMap catalogKeyOnly).2.2 = true
      ∧ ((∀ i, i ≤ mapFieldKV.levels → mapFieldKV.mapResolvesAt catalogKeyOnly i = false) →
          mapFieldKV.isMap catalogKeyOnly = (mapFieldKV.KeyTypeName, mapFieldKV.TypeName, true))
      ∧ mapFieldKV.TypeBase catalogKeyOnly
          = "map <" ++ (mapFieldKV.isMap catalogKeyOnly).1 ++ ", "
              ++ (mapFieldKV.isMap catalogKeyOnly).2.1 ++ ">"
      ∧ mapFieldKV.TypeBase catalogKeyOnly ≠ "(" ++ mapFieldKV.TypeName ++ ")" :=
  isMap_never_fails mapFieldKV catalogKeyOnly (by decide)

/-! ## Lemmas on request/response binding -/

theorem findMessage_of_unbound (pp : parser.Proto) (mt : String) (h : unbound pp mt) :
    findMessage pp mt = .error (Error.noMessage mt) := by
  unfold findMessage
  have hnone : pp.ProtoBody.findSome? (fun x =>
      match x with
      | .Message name body comments =>
        if name = mt then some (parser.Message.mk name body comments) else none
      | _ => none) = none := by
    rw [List.findSome?_eq_none_iff]
    intro x hx
    cases x with
    | Message name body comments =>
      by_cases hn : name = mt
      · subst hn
        exact absurd ⟨body, comments, hx⟩ h.1
      · simp [hn]
    | _ => rfl
  rw [hnone]
  simp [h.2]

theorem findMessage_of_bound (pp : parser.Proto) (mt : String) (h : ¬ unbound pp mt) :
    ∃ m, findMessage pp mt = .ok m := by
  unfold findMessage
  split
  · exact ⟨_, rfl⟩
  · rename_i hnone
    rw [List.findSome?_eq_none_iff] at hnone
    by_cases hs : mt = "google.protobuf.Empty"
    · rw [if_pos hs]
      exact ⟨_, rfl⟩
    · exfalso
      apply h
      refine ⟨?_, hs⟩
      rintro ⟨body, comments, hx⟩
      have := hnone _ hx
      simp at this

theorem findMessage_sentinel (pp : parser.Proto)
    (h : ¬ declaredTopLevel pp "google.protobuf.Empty") :
    findMessage pp "google.protobuf.Empty"
      = .ok { MessageName := "google.protobuf.Empty", MessageBody := [], Comments := [] } := by
  unfold findMessage
  have hnone : pp.ProtoBody.findSome? (fun x =>
      match x with
      | .Message name body comments =>
        if name = "google.protobuf.Empty" then some (parser.Message.mk name body comments)
        else none
      | _ => none) = none := by
    rw [List.findSome?_eq_none_iff]
    intro x hx
    cases x with
    | Message name body comments =>
      by_cases hn : name = "google.protobuf.Empty"
      · subst hn
        exact absurd ⟨body, comments, hx⟩ h
      · simp [hn]
    | _ => rfl
  rw [hnone]
  simp

theorem extractRPCRequest_error_iff (rr : parser.RPCRequest) (pp : parser.Proto) :
    (∃ e, extractRPCRequest rr pp = .error e) ↔ unbound pp rr.MessageType := by
  unfold extractRPCRequest
  constructor
  · rintro ⟨e, he⟩
    by_contra hb
    obtain ⟨m, hm⟩ := findMessage_of_bound pp _ hb
    rw [hm] at he
    simp at he
  · intro h
    rw [findMessage_of_unbound pp _ h]
    exact ⟨_, rfl⟩

theorem extractRPCResponse_error_iff (rr : parser.RPCResponse) (pp : parser.Proto) :
    (∃ e, extractRPCResponse rr pp = .error e) ↔ unbound pp rr.MessageType := by
  unfold extractRPCResponse
  constructor
  · rintro ⟨e, he⟩
    by_contra hb
    obtain ⟨m, hm⟩ := findMessage_of_bound pp _ hb
    rw [hm] at he
    simp at he
  · intro h
    rw [findMessage_of_unbound pp _ h]
    exact ⟨_, rfl⟩

theorem except_ok_or_error {ε α : Type} (r : Except ε α) :
    (∃ a, r = .ok a) ∨ (∃ e, r = .error e) := by
  cases r with
  | ok a => exact Or.inl ⟨a, rfl⟩
  | error e => exact Or.inr ⟨e, rfl⟩

theorem composeInterfaces_body_error_iff (s : Service) (pp : parser.Proto)
    (ext : Option StrMap) (x : parser.Visitee) :
    (∃ e, composeInterfaces.body s pp ext x = .error e) ↔ rpcUnbound pp x := by
  cases x with
  | RPC rpcName rpcRequest rpcResponse comments inlineComment =>
    simp only [composeInterfaces.body, rpcUnbound]
    rw [← extractRPCRequest_error_iff, ← extractRPCResponse_error_iff]
    rcases except_ok_or_error (extractRPCRequest rpcRequest pp) with ⟨a, ha⟩ | ⟨e, he⟩
    · rcases except_ok_or_error (extractRPCResponse rpcResponse pp) with ⟨b, hb⟩ | ⟨e, he⟩
      · rw [ha, hb]
        simp
      · rw [ha, he]
        simp
    · rw [he]
      simp
  | _ => simp [composeInterfaces.body, rpcUnbound]

theorem composeInterfaces_loop_error_iff (s : Service) (pp : parser.Proto)
    (ext : Option StrMap) (body : List parser.Visitee) :
    (∃ e, composeInterfaces.loop s pp ext body = .error e) ↔ ∃ x ∈ body, rpcUnbound pp x := by
  induction body with
  | nil => simp [composeInterfaces.loop]
  | cons x rest ih =>
    unfold composeInterfaces.loop
    rcases except_ok_or_error (composeInterfaces.body s pp ext x) with ⟨a, ha⟩ | ⟨e, he⟩
    · have hx : ¬ rpcUnbound pp x := by
        rw [← composeInterfaces_body_error_iff s pp ext x, ha]
        simp
      rw [ha]
      rcases except_ok_or_error (composeInterfaces.loop s pp ext rest) with ⟨b, hb⟩ | ⟨e, he⟩
      · have hr : ¬ ∃ x ∈ rest, rpcUnbound pp x := by
          rw [← ih, hb]
          simp
        rw [hb]
        simp only [List.mem_cons, exists_eq_or_imp, reduceCtorEq, exists_false, false_iff]
        rintro (h | h)
        · exact hx h
        · exact hr h
      · have hr : ∃ x ∈ rest, rpcUnbound pp x := by
          rw [← ih, he]
          exact ⟨_, rfl⟩
        rw [he]
        simp only [List.mem_cons, exists_eq_or_imp]
        exact ⟨fun _ => Or.inr hr, fun _ => ⟨_, rfl⟩⟩
    · have hx : rpcUnbound pp x := by
        rw [← composeInterfaces_body_error_iff s pp ext x, he]
        exact ⟨_, rfl⟩
      rw [he]
      simp only [List.mem_cons, exists_eq_or_imp]
      exact ⟨fun _ => Or.inl hx, fun _ => ⟨_, rfl⟩⟩

theorem addService_of_unbound (pf : ProtoFile) (ps : parser.Service) (pp : parser.Proto)
    (ext : Option StrMap) (h : ∃ x ∈ ps.ServiceBody, rpcUnbound pp x) :
    ∃ err, pf.addService ps pp ext = (pf, some err) := by
  unfold ProtoFile.addService composeInterfaces
  simp only []
  obtain ⟨e, he⟩ := (composeInterfaces_loop_error_iff _ pp _ ps.ServiceBody).mpr h
  rw [he]
  exact ⟨_, rfl⟩

theorem addService_of_bound (pf : ProtoFile) (ps : parser.Service) (pp : parser.Proto)
    (ext : Option StrMap) (h : ¬ ∃ x ∈ ps.ServiceBody, rpcUnbound pp x) :
    ∃ s : Service, pf.addService ps pp ext
        = ({ pf with Services := pf.Services ++ [s] }, none)
      ∧ s.ServiceName = ps.ServiceName := by
  unfold ProtoFile.addService composeInterfaces
  simp only []
  rcases except_ok_or_error (composeInterfaces.loop
      { Comment := (composeHeadComment ps.Comments ext).1, PackageName := extractPackageName pp,
        ServiceName := ps.ServiceName, Operations := [] } pp
      (some (composeHeadComment ps.Comments ext).2) ps.ServiceBody) with ⟨ops, hops⟩ | ⟨e, he⟩
  · rw [hops]
    exact ⟨_, rfl, rfl⟩
  · exact absurd ((composeInterfaces_loop_error_iff _ pp _ ps.ServiceBody).mp ⟨e, he⟩) h

/-- What the service loop of `ComposeFrom` does: the catalogs are untouched; without an error
no service has an unbound RPC and one `Service` per declared service is appended; with an
error the receiver is the result of the loop over the elements before the first service with an
unbound RPC. -/
theorem composeFrom_loop_spec (pp : parser.Proto) (ext : Option StrMap) :
    ∀ (body : List parser.Visitee) (pf : ProtoFile),
      (ComposeFrom.loop pp ext body pf).1.Objects = pf.Objects
        ∧ (ComposeFrom.loop pp ext body pf).1.Enums = pf.Enums
        ∧ ((ComposeFrom.loop pp ext body pf).2 = none →
            (¬ ∃ x ∈ body, serviceUnbound pp x)
              ∧ ∃ added, (ComposeFrom.loop pp ext body pf).1.Services = pf.Services ++ added
                  ∧ added.map (fun s => s.ServiceName)
                      = (servicesOf body).map (fun s => s.ServiceName))
        ∧ ((ComposeFrom.loop pp ext body pf).2 ≠ none →
            ∃ pre x post, body = pre ++ x :: post ∧ serviceUnbound pp x
              ∧ (∀ y ∈ pre, ¬ serviceUnbound pp y)
              ∧ ComposeFrom.loop pp ext pre pf = ((ComposeFrom.loop pp ext body pf).1, none))
  | [], pf => by
    simp [ComposeFrom.loop, servicesOf]
  | x :: rest, pf => by
    have ih := composeFrom_loop_spec pp ext rest
    by_cases hsvc : ∃ n b c, x = parser.Visitee.Service n b c
    · obtain ⟨n, b, c, hx⟩ := hsvc
      subst hx
      by_cases hu : ∃ y ∈ b, rpcUnbound pp y
      · obtain ⟨err, herr⟩ := addService_of_unbound pf ⟨n, b, c⟩ pp ext hu
        have hl : ComposeFrom.loop pp ext (parser.Visitee.Service n b c :: rest) pf
            = (pf, some (Error.wrap "add service" err)) := by
          simp only [ComposeFrom.loop, herr]
        rw [hl]
        refine ⟨rfl, rfl, ?_, ?_⟩
        · intro h
          simp at h
        · intro _
          exact ⟨[], _, rest, rfl, hu, by simp, rfl⟩
      · obtain ⟨s, hs, hname⟩ := addService_of_bound pf ⟨n, b, c⟩ pp ext hu
        have hl : ComposeFrom.loop pp ext (parser.Visitee.Service n b c :: rest) pf
            = ComposeFrom.loop pp ext rest { pf with Services := pf.Services ++ [s] } := by
          simp only [ComposeFrom.loop, hs]
        obtain ⟨h1, h2, h3, h4⟩ := ih { pf with Services := pf.Services ++ [s] }
        rw [hl]
        refine ⟨h1, h2, ?_, ?_⟩
        · intro h
          obtain ⟨hno, added, hadd, hnames⟩ := h3 h
          refine ⟨?_, s :: added, ?_, ?_⟩
          · rintro ⟨y, hy, hyu⟩
            rcases List.mem_cons.mp hy with hy | hy
            · subst hy
              exact hu hyu
            · exact hno ⟨y, hy, hyu⟩
          · rw [hadd]
            simp
          · simp only [List.map_cons, servicesOf, List.filterMap_cons]
            rw [hname]
            exact congrArg _ hnames
        · intro h
          obtain ⟨pre, y, post, hbody, hy, hpre, hloop⟩ := h4 h
          refine ⟨parser.Visitee.Service n b c :: pre, y, post, by rw [hbody]; rfl, hy, ?_, ?_⟩
          · intro z hz
            rcases List.mem_cons.mp hz with hz | hz
            · subst hz
              exact hu
            · exact hpre z hz
          · simp only [ComposeFrom.loop, hs]
            exact hloop
    · have hl : ∀ r pf, ComposeFrom.loop pp ext (x :: r) pf = ComposeFrom.loop pp ext r pf := by
        intro r pf
        cases x with
        | Service n b c => exact absurd ⟨n, b, c, rfl⟩ hsvc
        | _ => simp only [ComposeFrom.loop]
      have hnu : ¬ serviceUnbound pp x := by
        cases x with
        | Service n b c => exact absurd ⟨n, b, c, rfl⟩ hsvc
        | _ => simp [serviceUnbound]
      have hsv : servicesOf (x :: rest) = servicesOf rest := by
        cases x with
        | Service n b c => exact absurd ⟨n, b, c, rfl⟩ hsvc
        | _ => simp [servicesOf]
      obtain ⟨h1, h2, h3, h4⟩ := ih pf
      rw [hl]
      refine ⟨h1, h2, ?_, ?_⟩
      · intro h
        obtain ⟨hno, added, hadd, hnames⟩ := h3 h
        refine ⟨?_, added, hadd, by rw [hsv]; exact hnames⟩
        rintro ⟨y, hy, hyu⟩
        rcases List.mem_cons.mp hy with hy | hy
        · subst hy
          exact hnu hyu
        · exact hno ⟨y, hy, hyu⟩
      · intro h
        obtain ⟨pre, y, post, hbody, hy, hpre, hloop⟩ := h4 h
        refine ⟨x :: pre, y, post, by rw [hbody]; rfl, hy, ?_, ?_⟩
        · intro z hz
          rcases List.mem_cons.mp hz with hz | hz
          · subst hz
            exact hnu
          · exact hpre z hz
        · rw [hl]
          exact hloop

theorem composeFrom_snd (pf : ProtoFile) (pp : parser.Proto) :
    (pf.ComposeFrom pp).2
      = (ComposeFrom.loop pp (some (composeHeadComment (ComposeFrom.comments pp.ProtoBody)
          none).2) pp.ProtoBody pf).2 := by
  unfold ProtoFile.ComposeFrom
  simp only []
  split <;> rename_i h <;> rw [h]

theorem composeFrom_fst_of_error (pf : ProtoFile) (pp : parser.Proto)
    (herr : (pf.ComposeFrom pp).2 ≠ none) :
    (pf.ComposeFrom pp).1
      = (ComposeFrom.loop pp (some (composeHeadComment (ComposeFrom.comments pp.ProtoBody)
          none).2) pp.ProtoBody pf).1 := by
  rw [composeFrom_snd] at herr
  unfold ProtoFile.ComposeFrom
  simp only []
  split <;> rename_i h
  · rw [h]
  · rw [h] at herr
    exact absurd rfl herr

theorem composeFrom_fst_of_ok (pf : ProtoFile) (pp : parser.Proto)
    (hok : (pf.ComposeFrom pp).2 = none) :
    (pf.ComposeFrom pp).1
      = (ComposeFrom.loop pp (some (composeHeadComment (ComposeFrom.comments pp.ProtoBody)
          none).2) pp.ProtoBody pf).1.addObjectsAndEnums pp := by
  rw [composeFrom_snd] at hok
  unfold ProtoFile.ComposeFrom
  simp only []
  split <;> rename_i h
  · rw [h] at hok
    simp at hok
  · rw [h]

theorem serviceUnbound_iff (pp : parser.Proto) (body : List parser.Visitee) :
    (∃ x ∈ body, serviceUnbound pp x) ↔
      ∃ serviceName serviceBody comments,
        parser.Visitee.Service serviceName serviceBody comments ∈ body
          ∧ ∃ rpcName rpcRequest rpcResponse cs ic,
              parser.Visitee.RPC rpcName rpcRequest rpcResponse cs ic ∈ serviceBody
                ∧ (unbound pp rpcRequest.MessageType ∨ unbound pp rpcResponse.MessageType) := by
  constructor
  · rintro ⟨x, hx, hu⟩
    cases x with
    | Service n b c =>
      obtain ⟨y, hy, hyu⟩ := hu
      cases y with
      | RPC rn rq rs cs ic => exact ⟨n, b, c, hx, rn, rq, rs, cs, ic, hy, hyu⟩
      | _ => exact absurd hyu (by simp [rpcUnbound])
    | _ => exact absurd hu (by simp [serviceUnbound])
  · rintro ⟨n, b, c, hx, rn, rq, rs, cs, ic, hy, hyu⟩
    exact ⟨_, hx, _, hy, hyu⟩

/-! ## Claims on `ComposeFrom` -/

/-- C2: `ComposeFrom` returns an error if and only if some RPC of some service of the proto
body names a request or response message that is neither a top-level declared message nor
`google.protobuf.Empty`; and when the sentinel is not declared, a request or response bound to
it gets an empty parameter list instead of an error. -/
theorem composeFrom_error_iff (pf : ProtoFile) (pp : parser.Proto) :
    ((pf.ComposeFrom pp).2 ≠ none ↔
        ∃ serviceName serviceBody comments,
          parser.Visitee.Service serviceName serviceBody comments ∈ pp.ProtoBody
            ∧ ∃ rpcName rpcRequest rpcResponse cs ic,
                parser.Visitee.RPC rpcName rpcRequest rpcResponse cs ic ∈ serviceBody
                  ∧ (unbound pp rpcRequest.MessageType ∨ unbound pp rpcResponse.MessageType))
      ∧ (¬ declaredTopLevel pp "google.protobuf.Empty" →
          ∀ isStream,
            extractRPCRequest ⟨isStream, "google.protobuf.Empty"⟩ pp
                = .ok { Params := [], Typ := "google.protobuf.Empty" }
              ∧ extractRPCResponse ⟨isStream, "google.protobuf.Empty"⟩ pp
                = .ok { Params := [], Typ := "google.protobuf.Empty" }) := by
  constructor
  · rw [← serviceUnbound_iff, composeFrom_snd]
    obtain ⟨_, _, h3, h4⟩ := composeFrom_loop_spec pp
      (some (composeHeadComment (ComposeFrom.comments pp.ProtoBody) none).2) pp.ProtoBody pf
    constructor
    · intro h
      obtain ⟨pre, x, post, hbody, hx, _, _⟩ := h4 h
      exact ⟨x, by rw [hbody]; simp, hx⟩
    · intro h hnone
      exact (h3 hnone).1 h
  · intro h isStream
    unfold extractRPCRequest extractRPCResponse
    simp only [findMessage_sentinel pp h]
    exact ⟨rfl, rfl⟩

/-- C2 (witness): `partialTree` declares no `google.protobuf.Empty`; its RPC `Get(Missing)`
makes `ComposeFrom` fail, and a body bound to the sentinel has no parameters. -/
theorem composeFrom_error_iff_witness :
    (ProtoFile.empty.ComposeFrom partialTree).2 ≠ none
      ∧ extractRPCRequest ⟨false, "google.protobuf.Empty"⟩ partialTree
          = .ok { Params := [], Typ := "google.protobuf.Empty" }
      ∧ extractRPCResponse ⟨false, "google.protobuf.Empty"⟩ partialTree
          = .ok { Params := [], Typ := "google.protobuf.Empty" } :=
  ⟨(composeFrom_error_iff ProtoFile.empty partialTree).1.mpr
      ⟨"Bad", [.RPC "Get" ⟨false, "Missing"⟩ ⟨false, "google.protobuf.Empty"⟩ [] none], [],
        by simp [partialTree], "Get", ⟨false, "Missing"⟩,
        ⟨false, "google.protobuf.Empty"⟩, [], none, by simp,
        Or.inl ⟨by rintro ⟨b, c, h⟩; simp [partialTree] at h, by decide⟩⟩,
    (composeFrom_error_iff ProtoFile.empty partialTree).2
      (by rintro ⟨b, c, h⟩; simp [partialTree] at h) false⟩

/-- C3 (counterexample): on the tree of `package demo; service S { rpc M(Req) returns (Empty);
} message Req { string name = 1; }` `ComposeFrom` fails: `Empty` is neither declared in the
file nor the sentinel `google.protobuf.Empty`. -/
theorem composeFrom_demo_literal_fails :
    ProtoFile.empty.ComposeFrom (demoTree "Empty")
      = (ProtoFile.empty,
          some (Error.wrap "add service" (Error.wrap "compose interfaces"
            (Error.wrap "extract RPC response" (Error.wrap "find message"
              (Error.noMessage "Empty")))))) := by
  decide

/-- C3 (amended): on the tree of `package demo; service S { rpc M(Req) returns
(google.protobuf.Empty); } message Req { string name = 1; }` `ComposeFrom` succeeds with exactly
one service `S` holding exactly one endpoint `M`, of kind Unary, with URL path `/demo/S/M`,
HTTP method `POST`, the single request parameter `name` that resolves to the scalar `string`,
an empty response, and an object catalog without `Req`. -/
theorem composeFrom_demo :
    ProtoFile.empty.ComposeFrom (demoTree "google.protobuf.Empty")
        = ({ Services := [⟨"", "demo", "S", [demoEndpoint]⟩], Objects := [], Enums := [] }, none)
      ∧ demoEndpoint.MethodName = "M"
      ∧ demoEndpoint.Typ = RPCType.Unary
      ∧ demoEndpoint.URLPath = "/demo/S/M"
      ∧ demoEndpoint.HTTPMethod = "POST"
      ∧ demoEndpoint.Request.Params.map (fun f => f.Name) = ["name"]
      ∧ demoEndpoint.Request.Params.map
          (fun f => f.TypeBase (ProtoFile.empty.ComposeFrom (demoTree "google.protobuf.Empty")).1)
          = ["string"]
      ∧ demoEndpoint.Request.Params.map (fun f => f.isScalar) = [("string", true)]
      ∧ demoEndpoint.Response.Params = []
      ∧ (ProtoFile.empty.ComposeFrom (demoTree "google.protobuf.Empty")).1.Objects.all
          (fun o => decide (o.Name ≠ "Req")) = true := by
  decide

/-- C5 (counterexample): on `partialTree` the service `Good` binds, the service `Bad` fails,
`ComposeFrom` returns an error, and the receiver has gained the service `Good`. -/
theorem composeFrom_error_keeps_earlier_services :
    (ProtoFile.empty.ComposeFrom partialTree).2 ≠ none
      ∧ (ProtoFile.empty.ComposeFrom partialTree).1.Services ≠ ProtoFile.empty.Services
      ∧ (ProtoFile.empty.ComposeFrom partialTree).1.Services.map (fun s => s.ServiceName)
          = ["Good"] := by
  decide

/-- C5 (amended): whenever `ComposeFrom` returns an error, the receiver's `Objects` and `Enums`
are the same as before the call, and its `Services` are those before the call followed by one
`Service` for each service declared before the first service with an unbound RPC. -/
theorem composeFrom_error_state (pf : ProtoFile) (pp : parser.Proto)
    (herr : (pf.ComposeFrom pp).2 ≠ none) :
    (pf.ComposeFrom pp).1.Objects = pf.Objects
      ∧ (pf.ComposeFrom pp).1.Enums = pf.Enums
      ∧ ∃ pre x post, pp.ProtoBody = pre ++ x :: post ∧ serviceUnbound pp x
          ∧ (∀ y ∈ pre, ¬ serviceUnbound pp y)
          ∧ ∃ added, (pf.ComposeFrom pp).1.Services = pf.Services ++ added
              ∧ added.map (fun s => s.ServiceName)
                  = (servicesOf pre).map (fun s => s.ServiceName) := by
  have hfst := composeFrom_fst_of_error pf pp herr
  rw [composeFrom_snd] at herr
  obtain ⟨h1, h2, _, h4⟩ := composeFrom_loop_spec pp
    (some (composeHeadComment (ComposeFrom.comments pp.ProtoBody) none).2) pp.ProtoBody pf
  rw [hfst]
  refine ⟨h1, h2, ?_⟩
  obtain ⟨pre, x, post, hbody, hx, hpre, hloop⟩ := h4 herr
  refine ⟨pre, x, post, hbody, hx, hpre, ?_⟩
  obtain ⟨_, _, h3', _⟩ := composeFrom_loop_spec pp
    (some (composeHeadComment (ComposeFrom.comments pp.ProtoBody) none).2) pre pf
  rw [hloop] at h3'
  exact (h3' rfl).2

/-- C5 (witness): the failing call on `partialTree`. -/
theorem composeFrom_error_state_witness :
    (ProtoFile.empty.ComposeFrom partialTree).1.Objects = ProtoFile.empty.Objects
      ∧ (ProtoFile.empty.ComposeFrom partialTree).1.Enums = ProtoFile.empty.Enums
      ∧ ∃ pre x post, partialTree.ProtoBody = pre ++ x :: post ∧ serviceUnbound partialTree x
          ∧ (∀ y ∈ pre, ¬ serviceUnbound partialTree y)
          ∧ ∃ added, (ProtoFile.empty.ComposeFrom partialTree).1.Services
                = ProtoFile.empty.Services ++ added
              ∧ added.map (fun s => s.ServiceName)
                  = (servicesOf pre).map (fun s => s.ServiceName) :=
  composeFrom_error_state ProtoFile.empty partialTree (by decide)

/-- C7 (failing input): for the service `S { option deprecated = true; rpc M(Req) returns
(google.protobuf.Empty); }` of `optionTree`, whose body holds one RPC declaration,
`composeInterfaces` succeeds with two endpoints: the option statement contributes an endpoint
with an empty method name and the URL path `/demo/S/`. -/
theorem composeInterfaces_endpoint_for_option :
    (rpcsOf optionService.ServiceBody).map (fun r => r.RPCName) = ["M"]
      ∧ (match composeInterfaces ⟨"", "demo", "S", []⟩ optionService optionTree (some []) with
          | .ok eps => some (eps.map (fun op => (op.MethodName, op.URLPath, op.HTTPMethod)))
          | .error _ => none)
          = some [("", "/demo/S/", "POST"), ("M", "/demo/S/M", "POST")]
      ∧ (ProtoFile.empty.ComposeFrom optionTree).2 = none
      ∧ (ProtoFile.empty.ComposeFrom optionTree).1.Services.map
          (fun s => s.Operations.map (fun op => op.MethodName)) = [["", "M"]] := by
  decide

/-! ## Lemmas on the catalog walk -/

theorem strings.Join_cons_cons (a b : String) (rest : List String) (sep : String) :
    strings.Join (a :: b :: rest) sep = a ++ sep ++ strings.Join (b :: rest) sep := rfl

theorem strings.Join_cons_append_singleton (a n : String) (r : List String) :
    strings.Join (a :: (r ++ [n])) "." = a ++ "." ++ strings.Join (r ++ [n]) "." := by
  cases r with
  | nil => rfl
  | cons b r => rfl

theorem foldl_scope_append (path : List String) (acc n : String) :
    path.foldl (fun acc m => acc ++ m ++ ".") acc ++ n
      = acc ++ strings.Join (path ++ [n]) "." := by
  induction path generalizing acc with
  | nil => rfl
  | cons m r ih =>
    rw [List.foldl_cons, ih, List.cons_append, strings.Join_cons_append_singleton]
    simp only [String.append_assoc]

theorem dropFirst_dot_append (x : String) : dropFirst ("." ++ x) = x := by
  unfold dropFirst
  apply String.ext
  rw [String.data_append]
  rfl

/-- The name that `composeObject` and `composeEnum` form is the dotted fully-qualified name. -/
theorem dropFirst_enclosingNameOf (path : List String) (n : String) :
    dropFirst (enclosingNameOf path) ++ n = strings.Join (path ++ [n]) "." := by
  have h : ∀ (p : List String) (acc : String),
      p.foldl (fun acc m => acc ++ m ++ ".") ("." ++ acc)
        = "." ++ p.foldl (fun acc m => acc ++ m ++ ".") acc := by
    intro p
    induction p with
    | nil => intro acc; rfl
    | cons m r ih =>
      intro acc
      rw [List.foldl_cons, List.foldl_cons, String.append_assoc, String.append_assoc, ih,
        String.append_assoc]
  have h0 : enclosingNameOf path = "." ++ path.foldl (fun acc m => acc ++ m ++ ".") "" := by
    unfold enclosingNameOf
    have := h path ""
    rw [String.append_empty] at this
    exact this
  rw [h0, dropFirst_dot_append, foldl_scope_append, String.empty_append]

theorem enclosingNameOf_append (path : List String) (n : String) :
    enclosingNameOf (path ++ [n]) = enclosingNameOf path ++ n ++ "." := by
  unfold enclosingNameOf
  rw [List.foldl_append]
  rfl

theorem composeObject_eq (m : parser.Message) (path : List String) :
    composeObject m (enclosingNameOf path)
      = objectOf (strings.Join (path ++ [m.MessageName]) ".", m) := by
  unfold composeObject objectOf
  simp only [dropFirst_enclosingNameOf]

theorem composeEnum_eq (e : parser.Enum) (path : List String) :
    composeEnum e (enclosingNameOf path)
      = enumOf (strings.Join (path ++ [e.EnumName]) ".", e) := by
  unfold composeEnum enumOf
  simp only [dropFirst_enclosingNameOf]

mutual
/-- What one iteration of `extractMessagesAndEnums` appends to the catalogs. -/
theorem extract_body_eq (excludes : List String) :
    ∀ (x : parser.Visitee) (path : List String) (pf : ProtoFile),
      extractMessagesAndEnums.body excludes (enclosingNameOf path) x pf
        = { Services := pf.Services
            Objects := pf.Objects ++
              ((declaredMessages.one path x).filter
                (fun d => !decide (d.1 ∈ excludes))).map objectOf
            Enums := pf.Enums ++ (declaredEnums.one path x).map enumOf }
  | .Message n b c, path, pf => by
    have ih := extract_eq excludes b (path ++ [n])
    rw [enclosingNameOf_append] at ih
    simp only [extractMessagesAndEnums.body, declaredMessages.one, declaredEnums.one, ih,
      composeObject_eq]
    by_cases hex : (objectOf (strings.Join (path ++ [n]) ".", ⟨n, b, c⟩)).Name ∈ excludes
    · have hex' : strings.Join (path ++ [n]) "." ∈ excludes := hex
      simp [hex, hex', List.filter_cons]
    · have hex' : strings.Join (path ++ [n]) "." ∉ excludes := hex
      simp [hex, hex', List.filter_cons]
  | .Enum n b c, path, pf => by
    simp [extractMessagesAndEnums.body, declaredMessages.one, declaredEnums.one,
      composeEnum_eq]
  | .Comment _, path, pf => by
    simp [extractMessagesAndEnums.body, declaredMessages.one, declaredEnums.one]
  | .Package _ _, path, pf => by
    simp [extractMessagesAndEnums.body, declaredMessages.one, declaredEnums.one]
  | .Service _ _ _, path, pf => by
    simp [extractMessagesAndEnums.body, declaredMessages.one, declaredEnums.one]
  | .RPC _ _ _ _ _, path, pf => by
    simp [extractMessagesAndEnums.body, declaredMessages.one, declaredEnums.one]
  | .Field _ _ _ _ _, path, pf => by
    simp [extractMessagesAndEnums.body, declaredMessages.one, declaredEnums.one]
  | .MapField _ _ _ _ _, path, pf => by
    simp [extractMessagesAndEnums.body, declaredMessages.one, declaredEnums.one]
  | .EnumField _ _ _ _, path, pf => by
    simp [extractMessagesAndEnums.body, declaredMessages.one, declaredEnums.one]
  | .other, path, pf => by
    simp [extractMessagesAndEnums.body, declaredMessages.one, declaredEnums.one]
/-- What `extractMessagesAndEnums` appends to the catalogs: every declared enum, and every
declared message whose fully-qualified name is not excluded, in depth-first declaration
order. -/
theorem extract_eq (excludes : List String) :
    ∀ (body : List parser.Visitee) (path : List String) (pf : ProtoFile),
      extractMessagesAndEnums excludes (enclosingNameOf path) body pf
        = { Services := pf.Services
            Objects := pf.Objects ++
              ((declaredMessages path body).filter
                (fun d => !decide (d.1 ∈ excludes))).map objectOf
            Enums := pf.Enums ++ (declaredEnums path body).map enumOf }
  | [], path, pf => by
    simp [extractMessagesAndEnums, declaredMessages, declaredEnums]
  | x :: rest, path, pf => by
    have ih1 := extract_body_eq excludes x path pf
    have ih2 := extract_eq excludes rest path
    simp only [extractMessagesAndEnums, declaredMessages, declaredEnums, ih1, ih2]
    simp
end

theorem excludesOf_services (pf pf' : ProtoFile) (h : pf'.Services = pf.Services) :
    excludesOf pf' = excludesOf pf := by
  unfold excludesOf
  rw [h]

theorem mem_excludesOf (pf : ProtoFile) (t : String) :
    t ∈ excludesOf pf ↔
      ∃ s ∈ pf.Services, ∃ op ∈ s.Operations, t = op.Request.Typ ∨ t = op.Response.Typ := by
  unfold excludesOf
  simp only [List.mem_flatMap, List.mem_cons, List.mem_singleton, List.not_mem_nil, or_false]

theorem addObjectsAndEnums_eq (pf : ProtoFile) (pp : parser.Proto) :
    pf.addObjectsAndEnums pp
      = { Services := pf.Services
          Objects := pf.Objects ++
            ((declaredMessages [] pp.ProtoBody).filter
              (fun d => !decide (d.1 ∈ excludesOf pf))).map objectOf
          Enums := pf.Enums ++ (declaredEnums [] pp.ProtoBody).map enumOf } := by
  unfold ProtoFile.addObjectsAndEnums
  exact extract_eq (excludesOf pf) pp.ProtoBody [] pf

/-- The catalogs after a successful `ComposeFrom`. -/
theorem composeFrom_catalogs (pf : ProtoFile) (pp : parser.Proto)
    (hok : (pf.ComposeFrom pp).2 = none) :
    (pf.ComposeFrom pp).1.Objects
        = pf.Objects ++
            ((declaredMessages [] pp.ProtoBody).filter
              (fun d => !decide (d.1 ∈ excludesOf (pf.ComposeFrom pp).1))).map objectOf
      ∧ (pf.ComposeFrom pp).1.Enums
        = pf.Enums ++ (declaredEnums [] pp.ProtoBody).map enumOf := by
  have hfst := composeFrom_fst_of_ok pf pp hok
  obtain ⟨h1, h2, _, _⟩ := composeFrom_loop_spec pp
    (some (composeHeadComment (ComposeFrom.comments pp.ProtoBody) none).2) pp.ProtoBody pf
  have hex : excludesOf (pf.ComposeFrom pp).1
      = excludesOf (ComposeFrom.loop pp
          (some (composeHeadComment (ComposeFrom.comments pp.ProtoBody) none).2)
          pp.ProtoBody pf).1 := by
    apply excludesOf_services
    rw [hfst, addObjectsAndEnums_eq]
  rw [hex, hfst, addObjectsAndEnums_eq, h1, h2]
  exact ⟨rfl, rfl⟩

/-! ## Claims on the catalogs -/

/-- C4: after a successful `ComposeFrom`, `Objects` is what it was before the call (nothing,
for a fresh `ProtoFile`) followed by the depth-first, declaration-order list of all declared
messages at every nesting depth, minus those whose fully-qualified name is the request or
response type name of some operation of the model; so every declared message that is not
itself excluded is catalogued, also when it is nested inside an excluded one. -/
theorem composeFrom_objects (pf : ProtoFile) (pp : parser.Proto)
    (hok : (pf.ComposeFrom pp).2 = none) :
    (pf.ComposeFrom pp).1.Objects
        = pf.Objects ++
            ((declaredMessages [] pp.ProtoBody).filter
              (fun d => !decide (d.1 ∈ excludesOf (pf.ComposeFrom pp).1))).map objectOf
      ∧ (∀ t, t ∈ excludesOf (pf.ComposeFrom pp).1 ↔
          ∃ s ∈ (pf.ComposeFrom pp).1.Services, ∃ op ∈ s.Operations,
            t = op.Request.Typ ∨ t = op.Response.Typ)
      ∧ (∀ d ∈ declaredMessages [] pp.ProtoBody, d.1 ∉ excludesOf (pf.ComposeFrom pp).1 →
          objectOf d ∈ (pf.ComposeFrom pp).1.Objects) := by
  have h := (composeFrom_catalogs pf pp hok).1
  refine ⟨h, mem_excludesOf _, ?_⟩
  intro d hd hex
  rw [h]
  apply List.mem_append_right
  apply List.mem_map_of_mem
  rw [List.mem_filter]
  exact ⟨hd, by simp [hex]⟩

/-- C4 (witness): on `nestedTree` the request message `Req` is excluded, the message
`Req.Inner` nested in it is catalogued, and so is the message `Other.Req`, whose
fully-qualified name is not a request or response type name. -/
theorem composeFrom_objects_witness :
    (ProtoFile.empty.ComposeFrom nestedTree).1.Objects.map (fun o => o.Name)
        = ["Req.Inner", "Other", "Other.Req"]
      ∧ (ProtoFile.empty.ComposeFrom nestedTree).1.Objects
        = ProtoFile.empty.Objects ++
            ((declaredMessages [] nestedTree.ProtoBody).filter
              (fun d => !decide (d.1 ∈ excludesOf (ProtoFile.empty.ComposeFrom nestedTree).1))).map
              objectOf :=
  ⟨by decide, (composeFrom_objects ProtoFile.empty nestedTree (by decide)).1⟩

/-- C6 (counterexample): in the model assembled from `service S { rpc M(Req) returns (Req); }
message Req {} message Other { Req r = 1; }` the ordinary field `r` of the catalogued object
`Other` has the raw type `Req`, a message declared at the top level of the file, and renders
as the opaque `(Req)`: `Req` is excluded from the object catalog as a request type. -/
theorem typeBase_opaque_for_excluded_message :
    (ProtoFile.empty.ComposeFrom excludedRefTree).2 = none
      ∧ (ProtoFile.empty.ComposeFrom excludedRefTree).1.Objects.map (fun o => (o.Name, o.Attrs))
          = [("Other", [excludedRefField])]
      ∧ excludedRefField ∈ (ProtoFile.empty.ComposeFrom excludedRefTree).1.fields
      ∧ excludedRefField.KeyTypeName = ""
      ∧ excludedRefField.TypeName
          ∈ (declaredMessages [] excludedRefTree.ProtoBody).map (fun d => d.1)
      ∧ excludedRefField.TypeBase (ProtoFile.empty.ComposeFrom excludedRefTree).1 = "(Req)" := by
  decide

/-- C6 (amended): in every model assembled by a successful `ComposeFrom`, each ordinary
(non-map) field of a request, response or catalogued object resolves to a scalar, or to
`enum` and a name of `Enums`, or to `message` and a name of `Objects`, or it is rendered
opaque as `(TypeName)`; and it is opaque only if, at every index of its scope chain, the
candidate qualified name is the name of no declared enum and of no declared message other
than messages excluded from the catalog as the request or response type of an operation. -/
theorem typeBase_opaque_only_when_uncatalogued (pf : ProtoFile) (pp : parser.Proto)
    (hok : (pf.ComposeFrom pp).2 = none) (f : Field)
    (_hf : f ∈ (pf.ComposeFrom pp).1.fields) (hkey : f.KeyTypeName = "") :
    (f.TypeName ∈ scalarTypes ∧ f.TypeBase (pf.ComposeFrom pp).1 = f.TypeName)
      ∨ (∃ e ∈ (pf.ComposeFrom pp).1.Enums,
          f.TypeBase (pf.ComposeFrom pp).1 = "enum " ++ e.Name)
      ∨ (∃ o ∈ (pf.ComposeFrom pp).1.Objects,
          f.TypeBase (pf.ComposeFrom pp).1 = "message " ++ o.Name)
      ∨ (f.TypeBase (pf.ComposeFrom pp).1 = "(" ++ f.TypeName ++ ")"
          ∧ ∀ i, i ≤ f.levels →
              (∀ d ∈ declaredEnums [] pp.ProtoBody,
                d.1 ≠ qualifiedName (f.scopeAt i) f.TypeName)
              ∧ (∀ d ∈ declaredMessages [] pp.ProtoBody,
                  d.1 = qualifiedName (f.scopeAt i) f.TypeName →
                  d.1 ∈ excludesOf (pf.ComposeFrom pp).1)) := by
  obtain ⟨hobjs, henums⟩ := composeFrom_catalogs pf pp hok
  generalize (pf.ComposeFrom pp).1 = pf' at hobjs henums ⊢
  have hsc : f.isScalar = (f.TypeName, decide (f.TypeName ∈ scalarTypes)) := by
    unfold Field.isScalar
    simp [hkey]
  have hen : f.isEnum pf' = Field.isEnum.loop f pf' (strings.Split f.Enclosing '.') f.levels := by
    unfold Field.isEnum Field.levels
    simp [hkey]
  have hob : f.isObject pf'
      = Field.isObject.loop f pf' (strings.Split f.Enclosing '.') f.levels := by
    unfold Field.isObject Field.levels
    simp [hkey]
  have hmap : f.isMap pf' = ("", "", false) := by
    unfold Field.isMap
    simp [hkey]
  by_cases h1 : f.TypeName ∈ scalarTypes
  · left
    refine ⟨h1, ?_⟩
    unfold Field.TypeBase
    rw [hsc]
    simp [h1]
  · right
    by_cases h2 : (f.isEnum pf').2 = true
    · left
      obtain ⟨e, he, hname⟩ := isEnum_loop_true f pf' _ _ (hen ▸ h2)
      refine ⟨e, he, ?_⟩
      unfold Field.TypeBase
      rw [hsc, ← hname, ← hen]
      simp [h1, h2]
    · right
      by_cases h3 : (f.isObject pf').2 = true
      · left
        obtain ⟨o, ho, hname⟩ := isObject_loop_true f pf' _ _ (hob ▸ h3)
        refine ⟨o, ho, ?_⟩
        unfold Field.TypeBase
        rw [hsc, ← hname, ← hob]
        simp [h1, h2, h3]
      · right
        constructor
        · unfold Field.TypeBase
          rw [hsc, hmap]
          simp [h1, h2, h3]
        · intro i hi
          have h2' : (f.isEnum pf').2 = false := by simpa using h2
          have h3' : (f.isObject pf').2 = false := by simpa using h3
          rw [hen, isEnum_loop_false_iff] at h2'
          rw [hob, isObject_loop_false_iff] at h3'
          constructor
          · intro d hd hname
            apply h2' i hi (enumOf d)
            · rw [henums]
              exact List.mem_append_right _ (List.mem_map_of_mem _ hd)
            · exact hname
          · intro d hd hname
            by_contra hex
            apply h3' i hi (objectOf d)
            · rw [hobjs]
              apply List.mem_append_right
              apply List.mem_map_of_mem
              rw [List.mem_filter]
              exact ⟨hd, by simp [hex]⟩
            · exact hname

/-- C6 (witness): the field `Req r` of `Other` in the model of `excludedRefTree`. -/
theorem typeBase_opaque_only_when_uncatalogued_witness :
    (excludedRefField.TypeName ∈ scalarTypes
        ∧ excludedRefField.TypeBase (ProtoFile.empty.ComposeFrom excludedRefTree).1
            = excludedRefField.TypeName)
      ∨ (∃ e ∈ (ProtoFile.empty.ComposeFrom excludedRefTree).1.Enums,
          excludedRefField.TypeBase (ProtoFile.empty.ComposeFrom excludedRefTree).1
            = "enum " ++ e.Name)
      ∨ (∃ o ∈ (ProtoFile.empty.ComposeFrom excludedRefTree).1.Objects,
          excludedRefField.TypeBase (ProtoFile.empty.ComposeFrom excludedRefTree).1
            = "message " ++ o.Name)
      ∨ (excludedRefField.TypeBase (ProtoFile.empty.ComposeFrom excludedRefTree).1
            = "(" ++ excludedRefField.TypeName ++ ")"
          ∧ ∀ i, i ≤ excludedRefField.levels →
              (∀ d ∈ declaredEnums [] excludedRefTree.ProtoBody,
                d.1 ≠ qualifiedName (excludedRefField.scopeAt i) excludedRefField.TypeName)
              ∧ (∀ d ∈ declaredMessages [] excludedRefTree.ProtoBody,
                  d.1 = qualifiedName (excludedRefField.scopeAt i) excludedRefField.TypeName →
                  d.1 ∈ excludesOf (ProtoFile.empty.ComposeFrom excludedRefTree).1)) :=
  typeBase_opaque_only_when_uncatalogued ProtoFile.empty excludedRefTree (by decide)
    excludedRefField (by decide) (by decide)

/-! ## Claims on scalars, RPC kinds and endpoints -/

/-- C11: for every field with an empty key type whose `TypeName` is one of the fifteen built-in
scalar identifiers, `TypeBase` returns exactly `TypeName`, whatever the enum and object
catalogs contain. -/
theorem typeBase_scalar (f : Field) (pf : ProtoFile)
    (hkey : f.KeyTypeName = "")
    (hscalar : f.TypeName ∈ ["double", "float", "int32", "int64", "uint32", "uint64", "sint32",
      "sint64", "fixed32", "fixed64", "sfixed32", "sfixed64", "bool", "string", "bytes"]) :
    f.TypeBase pf = f.TypeName := by
  have hsc : f.isScalar = (f.TypeName, true) := by
    unfold Field.isScalar
    rw [if_neg (by simp [hkey])]
    have : f.TypeName ∈ scalarTypes := hscalar
    simp [this]
  unfold Field.TypeBase
  rw [hsc]
  simp

/-- C11 (witness): the field `string s` against catalogs that declare an enum and a message
named `string` at the top level and in the enclosing scope. -/
theorem typeBase_scalar_witness :
    scalarField.TypeBase catalogShadowingScalar = scalarField.TypeName :=
  typeBase_scalar scalarField catalogShadowingScalar (by decide) (by decide)

/-- C19: `extractRPCType` returns Unary iff neither stream flag is set, ClientStreaming iff
only the request flag is set, ServerStreaming iff only the response flag is set, and
BidirectionalStreaming iff both are set; the four kinds are pairwise distinct. -/
theorem extractRPCType_spec (rpc : parser.RPC) :
    (extractRPCType rpc = RPCType.Unary ↔
        rpc.RPCRequest.IsStream = false ∧ rpc.RPCResponse.IsStream = false)
      ∧ (extractRPCType rpc = RPCType.ClientStreaming ↔
          rpc.RPCRequest.IsStream = true ∧ rpc.RPCResponse.IsStream = false)
      ∧ (extractRPCType rpc = RPCType.ServerStreaming ↔
          rpc.RPCRequest.IsStream = false ∧ rpc.RPCResponse.IsStream = true)
      ∧ (extractRPCType rpc = RPCType.BidirectionalStreaming ↔
          rpc.RPCRequest.IsStream = true ∧ rpc.RPCResponse.IsStream = true)
      ∧ [RPCType.Unary, RPCType.ClientStreaming, RPCType.ServerStreaming,
          RPCType.BidirectionalStreaming].Nodup := by
  unfold extractRPCType
  cases h1 : rpc.RPCRequest.IsStream <;> cases h2 : rpc.RPCResponse.IsStream <;>
    simp

theorem validate_spec (e : Endpoint) :
    e.validate = { e with
      URLPath := "/" ++ e.PackageName ++ "/" ++ e.ServiceName ++ "/" ++ e.MethodName
      HTTPMethod := if e.Typ = RPCType.Unary then "POST" else "GET" } := by
  unfold Endpoint.validate
  by_cases h : e.Typ = RPCType.Unary <;> simp [h]

theorem composeInterfaces_body_validated (s : Service) (pp : parser.Proto)
    (ext : Option StrMap) (x : parser.Visitee) (op : Endpoint)
    (h : composeInterfaces.body s pp ext x = .ok op) :
    ∃ e : Endpoint, op = e.validate := by
  cases x with
  | RPC rpcName rpcRequest rpcResponse comments inlineComment =>
    simp only [composeInterfaces.body] at h
    rcases except_ok_or_error (extractRPCRequest rpcRequest pp) with ⟨a, ha⟩ | ⟨e, he⟩
    · rcases except_ok_or_error (extractRPCResponse rpcResponse pp) with ⟨b, hb⟩ | ⟨e, he⟩
      · rw [ha, hb] at h
        injection h with h
        exact ⟨_, h.symm⟩
      · rw [ha, he] at h
        simp at h
    · rw [he] at h
      simp at h
  | _ =>
    simp only [composeInterfaces.body] at h
    injection h with h
    exact ⟨_, h.symm⟩

theorem composeInterfaces_loop_validated (s : Service) (pp : parser.Proto)
    (ext : Option StrMap) :
    ∀ (body : List parser.Visitee) (eps : List Endpoint),
      composeInterfaces.loop s pp ext body = .ok eps →
        ∀ op ∈ eps, ∃ e : Endpoint, op = e.validate
  | [], eps, h => by
    simp only [composeInterfaces.loop] at h
    injection h with h
    subst h
    simp
  | x :: rest, eps, h => by
    simp only [composeInterfaces.loop] at h
    rcases except_ok_or_error (composeInterfaces.body s pp ext x) with ⟨op, hop⟩ | ⟨e, he⟩
    · rw [hop] at h
      rcases except_ok_or_error (composeInterfaces.loop s pp ext rest) with
        ⟨eps', heps⟩ | ⟨e, he⟩
      · rw [heps] at h
        injection h with h
        subst h
        intro op' hop'
        rcases List.mem_cons.mp hop' with hop' | hop'
        · subst hop'
          exact composeInterfaces_body_validated s pp ext x _ hop
        · exact composeInterfaces_loop_validated s pp ext rest eps' heps op' hop'
      · rw [he] at h
        simp at h
    · rw [he] at h
      simp at h

/-- C20: every `Endpoint` that `composeInterfaces` returns has `URLPath = "/" + PackageName +
"/" + ServiceName + "/" + MethodName` and `HTTPMethod` `POST` for the kind Unary and `GET`
for the three streaming kinds; and `Endpoint.validate` leaves every field other than
`URLPath` and `HTTPMethod` as it was. -/
theorem composeInterfaces_derived_fields (s : Service) (ps : parser.Service)
    (pp : parser.Proto) (ext : Option StrMap) (eps : List Endpoint)
    (h : composeInterfaces s ps pp ext = .ok eps) :
    (∀ op ∈ eps,
        op.URLPath = "/" ++ op.PackageName ++ "/" ++ op.ServiceName ++ "/" ++ op.MethodName
          ∧ (op.Typ = RPCType.Unary → op.HTTPMethod = "POST")
          ∧ (op.Typ = RPCType.ClientStreaming ∨ op.Typ = RPCType.ServerStreaming
              ∨ op.Typ = RPCType.BidirectionalStreaming → op.HTTPMethod = "GET"))
      ∧ ∀ e : Endpoint,
          e.validate.PackageName = e.PackageName ∧ e.validate.ServiceName = e.ServiceName
            ∧ e.validate.MethodName = e.MethodName ∧ e.validate.Comment = e.Comment
            ∧ e.validate.Markdown = e.Markdown ∧ e.validate.Typ = e.Typ
            ∧ e.validate.Request = e.Request ∧ e.validate.Response = e.Response
            ∧ e.validate.Extensions = e.Extensions := by
  constructor
  · intro op hop
    obtain ⟨e, he⟩ := composeInterfaces_loop_validated s pp ext ps.ServiceBody eps h op hop
    subst he
    rw [validate_spec]
    refine ⟨rfl, ?_, ?_⟩
    · intro hu
      have hu' : e.Typ = RPCType.Unary := hu
      simp [hu']
    · intro hs
      have hs' : e.Typ ≠ RPCType.Unary := by
        have hs2 : e.Typ = RPCType.ClientStreaming ∨ e.Typ = RPCType.ServerStreaming
            ∨ e.Typ = RPCType.BidirectionalStreaming := hs
        rcases hs2 with h1 | h1 | h1 <;> rw [h1] <;> decide
      simp [hs']
  · intro e
    rw [validate_spec]
    exact ⟨rfl, rfl, rfl, rfl, rfl, rfl, rfl, rfl, rfl⟩

/-- C20 (witness): the two endpoints of the service `S` of `optionTree`. -/
theorem composeInterfaces_derived_fields_witness :
    ∃ eps, composeInterfaces ⟨"", "demo", "S", []⟩ optionService optionTree (some []) = .ok eps
      ∧ ∀ op ∈ eps,
          op.URLPath = "/" ++ op.PackageName ++ "/" ++ op.ServiceName ++ "/" ++ op.MethodName
            ∧ (op.Typ = RPCType.Unary → op.HTTPMethod = "POST")
            ∧ (op.Typ = RPCType.ClientStreaming ∨ op.Typ = RPCType.ServerStreaming
                ∨ op.Typ = RPCType.BidirectionalStreaming → op.HTTPMethod = "GET") :=
  ⟨_, rfl, (composeInterfaces_derived_fields ⟨"", "demo", "S", []⟩ optionService optionTree
    (some []) _ rfl).1⟩

/-! ## Lemmas on declarations and their catalog entries -/

theorem declaredMessages_one_subset (p : List String) (x : parser.Visitee) :
    ∀ (body : List parser.Visitee), x ∈ body →
      ∀ d ∈ declaredMessages.one p x, d ∈ declaredMessages p body
  | [], hx, _, _ => by simp at hx
  | y :: rest, hx, d, hd => by
    rw [declaredMessages]
    rcases List.mem_cons.mp hx with hx | hx
    · subst hx
      exact List.mem_append_left _ hd
    · exact List.mem_append_right _ (declaredMessages_one_subset p x rest hx d hd)

theorem declaredEnums_one_subset (p : List String) (x : parser.Visitee) :
    ∀ (body : List parser.Visitee), x ∈ body →
      ∀ d ∈ declaredEnums.one p x, d ∈ declaredEnums p body
  | [], hx, _, _ => by simp at hx
  | y :: rest, hx, d, hd => by
    rw [declaredEnums]
    rcases List.mem_cons.mp hx with hx | hx
    · subst hx
      exact List.mem_append_left _ hd
    · exact List.mem_append_right _ (declaredEnums_one_subset p x rest hx d hd)

/-- A message reached through the chain `path` is listed by `declaredMessages` under its
dotted name. -/
theorem mem_declaredMessages_of_declaredIn (body : List parser.Visitee) (path : List String)
    (x : parser.Visitee) (h : DeclaredIn body path x) :
    ∀ (p : List String) (n : String) (b : List parser.Visitee) (c : List parser.Comment),
      x = parser.Visitee.Message n b c →
        (strings.Join (p ++ path ++ [n]) ".", (⟨n, b, c⟩ : parser.Message))
          ∈ declaredMessages p body := by
  induction h with
  | here body x hx =>
    intro p n b c hxe
    subst hxe
    apply declaredMessages_one_subset p _ body hx
    rw [declaredMessages.one, List.append_nil]
    exact List.mem_cons_self _ _
  | nested body m mb mc path x hm _ ih =>
    intro p n b c hxe
    apply declaredMessages_one_subset p _ body hm
    rw [declaredMessages.one]
    apply List.mem_cons_of_mem
    have := ih (p ++ [m]) n b c hxe
    rw [List.append_assoc p [m] path] at this
    exact this

/-- An enum reached through the chain `path` is listed by `declaredEnums` under its dotted
name. -/
theorem mem_declaredEnums_of_declaredIn (body : List parser.Visitee) (path : List String)
    (x : parser.Visitee) (h : DeclaredIn body path x) :
    ∀ (p : List String) (n : String) (b : List parser.Visitee) (c : List parser.Comment),
      x = parser.Visitee.Enum n b c →
        (strings.Join (p ++ path ++ [n]) ".", (⟨n, b, c⟩ : parser.Enum))
          ∈ declaredEnums p body := by
  induction h with
  | here body x hx =>
    intro p n b c hxe
    subst hxe
    apply declaredEnums_one_subset p _ body hx
    rw [declaredEnums.one, List.append_nil]
    exact List.mem_singleton.mpr rfl
  | nested body m mb mc path x hm _ ih =>
    intro p n b c hxe
    apply declaredEnums_one_subset p _ body hm
    rw [declaredEnums.one]
    have := ih (p ++ [m]) n b c hxe
    rw [List.append_assoc p [m] path] at this
    exact this

theorem composeFields_enclosing (pm : parser.Message) (enclosing : String) :
    ∀ f ∈ composeFields pm enclosing, f.Enclosing = enclosing := by
  intro f hf
  unfold composeFields at hf
  rw [List.mem_filterMap] at hf
  obtain ⟨x, _, hx⟩ := hf
  cases x with
  | Field fieldName typ isRepeated comments inlineComment =>
    simp only [Option.some.injEq] at hx
    rw [← hx]
  | MapField mapName keyType typ comments inlineComment =>
    simp only [Option.some.injEq] at hx
    rw [← hx]
  | _ => simp at hx

theorem composeEnumFields_enclosing (pe : parser.Enum) (enclosing : String) :
    ∀ c ∈ composeEnumFields pe enclosing, c.Enclosing = enclosing := by
  intro c hc
  unfold composeEnumFields at hc
  rw [List.mem_filterMap] at hc
  obtain ⟨x, _, hx⟩ := hc
  cases x with
  | EnumField ident number comments inlineComment =>
    simp only [Option.some.injEq] at hx
    rw [← hx]
  | _ => simp at hx

/-! ## Claims on catalog names and enums -/

/-- C16 (counterexample): on the tree of `message A {} message A {} enum E { X = 0; }
enum E {}` `ComposeFrom` succeeds from the empty `ProtoFile`, and both catalogs hold two
entries with the same name. -/
theorem composeFrom_keeps_duplicate_names :
    (ProtoFile.empty.ComposeFrom duplicateTree).2 = none
      ∧ (ProtoFile.empty.ComposeFrom duplicateTree).1.Objects.map (fun o => o.Name)
          = ["A", "A"]
      ∧ (ProtoFile.empty.ComposeFrom duplicateTree).1.Enums.map (fun e => e.Name) = ["E", "E"]
      ∧ ¬ ((ProtoFile.empty.ComposeFrom duplicateTree).1.Objects.map (fun o => o.Name)).Nodup
      ∧ ¬ ((ProtoFile.empty.ComposeFrom duplicateTree).1.Enums.map (fun e => e.Name)).Nodup := by
  decide

/-- C16 (amended): on every tree on which `ComposeFrom` succeeds from the empty `ProtoFile`,
the names of `Objects` are the fully-qualified names of the declared messages that are not
excluded, one entry per declaration and in declaration order, and the names of `Enums` are
those of the declared enums; so the names of a catalog are pairwise distinct whenever the
fully-qualified names of the declarations are. -/
theorem composeFrom_names_nodup (pp : parser.Proto)
    (hok : (ProtoFile.empty.ComposeFrom pp).2 = none) :
    (ProtoFile.empty.ComposeFrom pp).1.Objects.map (fun o => o.Name)
        = ((declaredMessages [] pp.ProtoBody).filter
            (fun d => !decide (d.1 ∈ excludesOf (ProtoFile.empty.ComposeFrom pp).1))).map
            (fun d => d.1)
      ∧ (ProtoFile.empty.ComposeFrom pp).1.Enums.map (fun e => e.Name)
        = (declaredEnums [] pp.ProtoBody).map (fun d => d.1)
      ∧ (((declaredMessages [] pp.ProtoBody).map (fun d => d.1)).Nodup →
          ((ProtoFile.empty.ComposeFrom pp).1.Objects.map (fun o => o.Name)).Nodup)
      ∧ (((declaredEnums [] pp.ProtoBody).map (fun d => d.1)).Nodup →
          ((ProtoFile.empty.ComposeFrom pp).1.Enums.map (fun e => e.Name)).Nodup) := by
  obtain ⟨hobjs, henums⟩ := composeFrom_catalogs ProtoFile.empty pp hok
  have h1 : (ProtoFile.empty.ComposeFrom pp).1.Objects.map (fun o => o.Name)
      = ((declaredMessages [] pp.ProtoBody).filter
          (fun d => !decide (d.1 ∈ excludesOf (ProtoFile.empty.ComposeFrom pp).1))).map
          (fun d => d.1) := by
    rw [hobjs]
    simp [ProtoFile.empty, List.map_map, Function.comp_def, objectOf]
  have h2 : (ProtoFile.empty.ComposeFrom pp).1.Enums.map (fun e => e.Name)
      = (declaredEnums [] pp.ProtoBody).map (fun d => d.1) := by
    rw [henums]
    simp [ProtoFile.empty, List.map_map, Function.comp_def, enumOf]
  refine ⟨h1, h2, ?_, ?_⟩
  · intro hnd
    rw [h1]
    exact hnd.sublist (List.Sublist.map _ (List.filter_sublist _))
  · intro hnd
    rw [h2]
    exact hnd

/-- C16 (witness): on `nestedTree` the declared names `Req`, `Req.Inner`, `Other`,
`Other.Req` are pairwise distinct, and so are the names of the object catalog. -/
theorem composeFrom_names_nodup_witness :
    ((ProtoFile.empty.ComposeFrom nestedTree).1.Objects.map (fun o => o.Name)).Nodup :=
  (composeFrom_names_nodup nestedTree (by decide)).2.2.1 (by decide)

/-- C17: a message named `n` declared inside the chain of messages `path = [m1, ..., mk]`
(`k ≥ 0`, outermost first) is composed by the walk of `addObjectsAndEnums` into the `Object`
with `Name = m1 + "." + ... + mk + "." + n` (just `n` when `k = 0`), every `Field` of whose
`Attrs` has that name as `Enclosing`, and this `Object` is in `Objects` unless the name is
excluded; an enum named `n` declared there is composed into the `Enum` of that name, every
constant of which has that name as `Enclosing`, and this `Enum` is in `Enums`. -/
theorem addObjectsAndEnums_qualified_names (pf : ProtoFile) (pp : parser.Proto)
    (path : List String) (n : String) (b : List parser.Visitee) (c : List parser.Comment) :
    (DeclaredIn pp.ProtoBody path (parser.Visitee.Message n b c) →
        (composeObject ⟨n, b, c⟩ (enclosingNameOf path)).Name = strings.Join (path ++ [n]) "."
          ∧ (∀ f ∈ (composeObject ⟨n, b, c⟩ (enclosingNameOf path)).Attrs,
              f.Enclosing = strings.Join (path ++ [n]) ".")
          ∧ (strings.Join (path ++ [n]) "." ∉ excludesOf pf →
              composeObject ⟨n, b, c⟩ (enclosingNameOf path)
                ∈ (pf.addObjectsAndEnums pp).Objects))
      ∧ (DeclaredIn pp.ProtoBody path (parser.Visitee.Enum n b c) →
          (composeEnum ⟨n, b, c⟩ (enclosingNameOf path)).Name = strings.Join (path ++ [n]) "."
            ∧ (∀ k ∈ (composeEnum ⟨n, b, c⟩ (enclosingNameOf path)).Constants,
                k.Enclosing = strings.Join (path ++ [n]) ".")
            ∧ composeEnum ⟨n, b, c⟩ (enclosingNameOf path) ∈ (pf.addObjectsAndEnums pp).Enums)
      ∧ strings.Join ([] ++ [n]) "." = n := by
  refine ⟨?_, ?_, rfl⟩
  · intro h
    rw [composeObject_eq]
    refine ⟨rfl, ?_, ?_⟩
    · intro f hf
      exact composeFields_enclosing _ _ f hf
    · intro hex
      rw [addObjectsAndEnums_eq]
      apply List.mem_append_right
      apply List.mem_map_of_mem
      rw [List.mem_filter]
      refine ⟨?_, by simp [hex]⟩
      have := mem_declaredMessages_of_declaredIn _ _ _ h [] n b c rfl
      rw [List.nil_append] at this
      exact this
  · intro h
    rw [composeEnum_eq]
    refine ⟨rfl, ?_, ?_⟩
    · intro k hk
      exact composeEnumFields_enclosing _ _ k hk
    · rw [addObjectsAndEnums_eq]
      apply List.mem_append_right
      apply List.mem_map_of_mem
      have := mem_declaredEnums_of_declaredIn _ _ _ h [] n b c rfl
      rw [List.nil_append] at this
      exact this

/-- C17 (witness): the enum `Kind` declared in `Outer.Inner` of `deepTree` is catalogued as
`Outer.Inner.Kind`, and its constants carry that name as their enclosing scope. -/
theorem addObjectsAndEnums_qualified_names_witness :
    (composeEnum ⟨"Kind", kindBody, []⟩ (enclosingNameOf ["Outer", "Inner"])).Name
        = strings.Join (["Outer", "Inner"] ++ ["Kind"]) "."
      ∧ (∀ k ∈ (composeEnum ⟨"Kind", kindBody, []⟩
            (enclosingNameOf ["Outer", "Inner"])).Constants,
          k.Enclosing = strings.Join (["Outer", "Inner"] ++ ["Kind"]) ".")
      ∧ composeEnum ⟨"Kind", kindBody, []⟩ (enclosingNameOf ["Outer", "Inner"])
          ∈ (ProtoFile.empty.addObjectsAndEnums deepTree).Enums :=
  (addObjectsAndEnums_qualified_names ProtoFile.empty deepTree ["Outer", "Inner"] "Kind"
    kindBody []).2.1
    (DeclaredIn.nested deepTree.ProtoBody "Outer" outerBody [] ["Inner"] _ (List.Mem.head _)
      (DeclaredIn.nested outerBody "Inner" innerBody [] [] _ (List.Mem.head _)
        (DeclaredIn.here innerBody _ (List.Mem.head _))))

/-- C18: after a successful `ComposeFrom`, `Enums` is what it was before the call followed by
exactly one `Enum` per declared enum, at the top level or nested at any depth inside
messages, in depth-first declaration order, whatever the exclusion set; each of them carries
the fully-qualified name of its enum, and its `Constants` are the enum fields of the enum
body in declaration order. -/
theorem composeFrom_enums (pf : ProtoFile) (pp : parser.Proto)
    (hok : (pf.ComposeFrom pp).2 = none) :
    (pf.ComposeFrom pp).1.Enums = pf.Enums ++ (declaredEnums [] pp.ProtoBody).map enumOf
      ∧ (pf.ComposeFrom pp).1.Enums.length
          = pf.Enums.length + (declaredEnums [] pp.ProtoBody).length
      ∧ ∀ d : String × parser.Enum,
          (enumOf d).Name = d.1
            ∧ (enumOf d).Constants.map (fun k => (k.Name, k.Val)) = enumFieldsOf d.2.EnumBody
            ∧ ∀ k ∈ (enumOf d).Constants, k.Enclosing = d.1 := by
  have h := (composeFrom_catalogs pf pp hok).2
  refine ⟨h, by rw [h]; simp, ?_⟩
  intro d
  refine ⟨rfl, ?_, fun k hk => composeEnumFields_enclosing _ _ k hk⟩
  unfold enumOf composeEnumFields enumFieldsOf
  simp only []
  generalize d.2.EnumBody = body
  induction body with
  | nil => rfl
  | cons x rest ih =>
    cases x <;> simp [List.filterMap_cons] <;> simpa using ih

/-- C18 (witness): the enum `Kind` nested in `Outer.Inner` of `deepTree`. -/
theorem composeFrom_enums_witness :
    (ProtoFile.empty.ComposeFrom deepTree).1.Enums.map
        (fun e => (e.Name, e.Constants.map (fun k => (k.Name, k.Val))))
        = [("Outer.Inner.Kind", [("K0", "0"), ("K1", "1")])]
      ∧ (ProtoFile.empty.ComposeFrom deepTree).1.Enums
        = ProtoFile.empty.Enums ++ (declaredEnums [] deepTree.ProtoBody).map enumOf :=
  ⟨by decide, (composeFrom_enums ProtoFile.empty deepTree (by decide)).1⟩

/-! ## Lemmas on the comment composer -/

theorem removeInitial_loop_true (lines : List String) :
    removeInitialEmptyLinesAndAsterisks.loop true lines = lines.map removeInitialAsterisk := by
  induction lines with
  | nil => rfl
  | cons line rest ih =>
    simp only [removeInitialEmptyLinesAndAsterisks.loop, Bool.not_true, Bool.false_and,
      Bool.false_eq_true, if_false, List.map_cons, ih]

theorem removeInitial_loop_false (lines : List String) :
    removeInitialEmptyLinesAndAsterisks.loop false lines
      = (lines.dropWhile isLeadingDecoration).map removeInitialAsterisk := by
  induction lines with
  | nil => rfl
  | cons line rest ih =>
    by_cases h : isLeadingDecoration line = true
    · have h' := h
      unfold isLeadingDecoration at h'
      simp only [removeInitialEmptyLinesAndAsterisks.loop, Bool.not_false, Bool.true_and]
      rw [if_pos h', ih, List.dropWhile_cons, if_pos h]
    · have h' := h
      unfold isLeadingDecoration at h'
      simp only [removeInitialEmptyLinesAndAsterisks.loop, Bool.not_false, Bool.true_and]
      rw [if_neg h', removeInitial_loop_true, List.dropWhile_cons, if_neg h, List.map_cons]

/-! ## Claims on the comment composer -/

/-- C12 (counterexample): after the content line `a`, the line `"  b"`, which starts with
neither `"* "` nor `"*\t"`, is not kept verbatim: it is whitespace-trimmed to `b`. -/
theorem removeInitial_trims_kept_lines :
    removeInitialEmptyLinesAndAsterisks ["a", "  b"] = ["a", "b"]
      ∧ removeInitialEmptyLinesAndAsterisks ["a", "  b"] ≠ ["a", "  b"]
      ∧ strings.HasPrefix "  b" "* " = false
      ∧ strings.HasPrefix "  b" "*\t" = false := by
  decide

/-- C12 (amended): `removeInitialEmptyLinesAndAsterisks` drops lines only while no line has
been kept: the lines whose trimmed form is empty or `"*"` and the lines that start with
`"* "` or `"*\t"`; from the first other line on every line, blank ones included, is kept in
order, as `removeInitialAsterisk` of it: the line is whitespace-trimmed, then a leading
`"* "` or `"*\t"` is removed once, and a line that is just `"*"` becomes empty. -/
theorem removeInitial_spec (lines : List String) :
    removeInitialEmptyLinesAndAsterisks lines
        = (lines.dropWhile isLeadingDecoration).map removeInitialAsterisk
      ∧ ∀ line : String,
          removeInitialAsterisk line
            = if strings.HasPrefix (strings.TrimSpace line) "* "
                  || strings.HasPrefix (strings.TrimSpace line) "*\t" then
                String.mk ((strings.TrimSpace line).data.drop 2)
              else if strings.TrimSpace line = "*" then ""
              else strings.TrimSpace line := by
  refine ⟨removeInitial_loop_false lines, ?_⟩
  intro line
  unfold removeInitialAsterisk
  simp only []
  generalize strings.TrimSpace line = t
  by_cases h1 : strings.HasPrefix t "* " = true
  · simp only [h1, if_true, Bool.true_or, strings.TrimPrefix]
    rfl
  · by_cases h2 : t = "*"
    · subst h2
      simp only [h1, if_false]
      decide
    · by_cases h3 : strings.HasPrefix t "*\t" = true
      · simp only [h1, h2, h3, if_false, if_true, Bool.or_true, strings.TrimPrefix]
        rfl
      · simp only [h1, h2, h3, if_false, strings.TrimPrefix, Bool.or_self,
          Bool.false_eq_true]

/-! ## Lemmas on extension maps -/

theorem get_set (m : StrMap) (k v k' : String) :
    (m.set k v).get? k' = if k = k' then some v else m.get? k' := by
  induction m with
  | nil =>
    simp only [StrMap.set, StrMap.get?]
  | cons e rest ih =>
    obtain ⟨ke, ve⟩ := e
    simp only [StrMap.set]
    by_cases h1 : ke = k
    · subst h1
      simp only [if_true, StrMap.get?]
      by_cases h2 : ke = k' <;> simp [h2]
    · simp only [h1, if_false, StrMap.get?, ih]
      by_cases h2 : ke = k'
      · subst h2
        have h3 : ¬ k = ke := fun h => h1 h.symm
        simp [h3]
      · simp [h2]

theorem lastValue_append (a b : List (String × String)) (k : String) :
    lastValue (a ++ b) k = (lastValue b k).or (lastValue a k) := by
  induction a with
  | nil =>
    simp only [List.nil_append, lastValue, Option.or_none]
  | cons d r ih =>
    rw [List.cons_append]
    simp only [lastValue]
    rw [ih]
    cases lastValue b k with
    | none => simp
    | some v => simp

theorem lastValue_eq_none_iff (ds : List (String × String)) (k : String) :
    lastValue ds k = none ↔ ∀ d ∈ ds, d.1 ≠ k := by
  induction ds with
  | nil => simp [lastValue]
  | cons d r ih =>
    simp only [lastValue, List.mem_cons, forall_eq_or_imp]
    cases h : lastValue r k with
    | none =>
      rw [h] at ih
      by_cases hd : d.1 = k
      · simp [hd]
      · simp only [hd, if_false, true_iff]
        exact ⟨hd, ih.mp rfl⟩
    | some v =>
      rw [h] at ih
      simp only [reduceCtorEq, false_iff, not_and]
      intro _ hr
      exact absurd (ih.mpr hr) (by simp)

theorem get_foldl_set (ds : List (String × String)) :
    ∀ (m : StrMap) (k : String),
      (ds.foldl (fun m d => StrMap.set m d.1 d.2) m).get? k
        = (lastValue ds k).or (m.get? k) := by
  induction ds with
  | nil =>
    intro m k
    simp [lastValue]
  | cons d r ih =>
    intro m k
    rw [List.foldl_cons, ih, get_set]
    simp only [lastValue]
    cases lastValue r k with
    | some v => simp
    | none =>
      by_cases hd : d.1 = k <;> simp [hd]

theorem get_none_of_not_mem (m : StrMap) (k : String) (h : k ∉ m.map (fun e => e.1)) :
    m.get? k = none := by
  induction m with
  | nil => rfl
  | cons e rest ih =>
    obtain ⟨ke, ve⟩ := e
    simp only [List.map_cons, List.mem_cons, not_or] at h
    have h1 : ¬ ke = k := fun h' => h.1 h'.symm
    simp only [StrMap.get?, h1, if_false]
    exact ih h.2

theorem lastValue_of_nodup (m : StrMap) (k : String) (h : (m.map (fun e => e.1)).Nodup) :
    lastValue m k = m.get? k := by
  induction m with
  | nil => rfl
  | cons e rest ih =>
    obtain ⟨ke, ve⟩ := e
    simp only [List.map_cons, List.nodup_cons] at h
    simp only [lastValue, StrMap.get?, ih h.2]
    by_cases h1 : ke = k
    · subst h1
      rw [get_none_of_not_mem rest ke h.1]
    · simp only [h1, if_false]
      generalize StrMap.get? rest k = o
      cases o <;> rfl

theorem keys_set (m : StrMap) (k v : String) :
    (m.set k v).map (fun e => e.1)
      = if k ∈ m.map (fun e => e.1) then m.map (fun e => e.1)
        else m.map (fun e => e.1) ++ [k] := by
  induction m with
  | nil => simp [StrMap.set]
  | cons e rest ih =>
    obtain ⟨ke, ve⟩ := e
    simp only [StrMap.set]
    by_cases h1 : ke = k
    · subst h1
      simp
    · have h2 : ¬ k = ke := fun h => h1 h.symm
      simp only [h1, if_false, List.map_cons, ih, List.mem_cons, h2, false_or]
      by_cases h3 : k ∈ rest.map (fun e => e.1)
      · simp only [h3, if_true]
      · simp only [h3, if_false, List.cons_append]

theorem nodup_set (m : StrMap) (k v : String) (h : (m.map (fun e => e.1)).Nodup) :
    ((m.set k v).map (fun e => e.1)).Nodup := by
  rw [keys_set]
  by_cases h1 : k ∈ m.map (fun e => e.1)
  · rw [if_pos h1]
    exact h
  · rw [if_neg h1]
    rw [List.nodup_append]
    refine ⟨h, List.nodup_singleton _, ?_⟩
    intro a ha hb
    rw [List.mem_singleton] at hb
    subst hb
    exact h1 ha

theorem nodup_foldl_set (ds : List (String × String)) :
    ∀ (m : StrMap), (m.map (fun e => e.1)).Nodup →
      ((ds.foldl (fun m d => StrMap.set m d.1 d.2) m).map (fun e => e.1)).Nodup := by
  induction ds with
  | nil => intro m h; exact h
  | cons d r ih =>
    intro m h
    rw [List.foldl_cons]
    exact ih _ (nodup_set m d.1 d.2 h)

theorem set_ne_nil (m : StrMap) (k v : String) : m.set k v ≠ [] := by
  cases m with
  | nil => simp [StrMap.set]
  | cons e rest =>
    obtain ⟨ke, ve⟩ := e
    simp only [StrMap.set]
    split <;> simp

theorem foldl_set_ne_nil (ds : List (String × String)) :
    ∀ (m : StrMap), m ≠ [] → ds.foldl (fun m d => StrMap.set m d.1 d.2) m ≠ [] := by
  induction ds with
  | nil => intro m h; exact h
  | cons d r ih =>
    intro m _
    rw [List.foldl_cons]
    exact ih _ (set_ne_nil m d.1 d.2)

theorem get_setAll (dst src : StrMap) (k : String) :
    (dst.setAll src).get? k = (lastValue src k).or (dst.get? k) := by
  unfold StrMap.setAll
  exact get_foldl_set src dst k

/-! ## Lemmas on extension lines -/

theorem isPrefixOf_head (a : Char) (p l : List Char) (h : (a :: p).isPrefixOf l = true) :
    l.head? = some a := by
  cases l with
  | nil => simp [List.isPrefixOf] at h
  | cons c r =>
    simp only [List.isPrefixOf, Bool.and_eq_true, beq_iff_eq] at h
    simp [h.1]

theorem isPrefixOf_third (a b c : Char) (p l : List Char)
    (h : (a :: b :: c :: p).isPrefixOf l = true) : (l.drop 2).head? = some c := by
  cases l with
  | nil => simp [List.isPrefixOf] at h
  | cons x r =>
    cases r with
    | nil => simp [List.isPrefixOf] at h
    | cons y r =>
      simp only [List.isPrefixOf, Bool.and_eq_true, beq_iff_eq] at h
      exact isPrefixOf_head c p _ h.2.2

/-- At most one of the four extension markers starts a given string. -/
theorem hasPrefix_exclusive (t : String) :
    (strings.HasPrefix t "Domain:" = true →
        strings.HasPrefix t "Category:" = false ∧ strings.HasPrefix t "x-domain:" = false
          ∧ strings.HasPrefix t "x-category:" = false)
      ∧ (strings.HasPrefix t "Category:" = true →
          strings.HasPrefix t "x-domain:" = false ∧ strings.HasPrefix t "x-category:" = false)
      ∧ (strings.HasPrefix t "x-domain:" = true → strings.HasPrefix t "x-category:" = false) := by
  have hD : strings.HasPrefix t "Domain:" = true → t.data.head? = some 'D' :=
    fun h => isPrefixOf_head 'D' ['o', 'm', 'a', 'i', 'n', ':'] _ h
  have hC : strings.HasPrefix t "Category:" = true → t.data.head? = some 'C' :=
    fun h => isPrefixOf_head 'C' ['a', 't', 'e', 'g', 'o', 'r', 'y', ':'] _ h
  have hxd : strings.HasPrefix t "x-domain:" = true → t.data.head? = some 'x' :=
    fun h => isPrefixOf_head 'x' ['-', 'd', 'o', 'm', 'a', 'i', 'n', ':'] _ h
  have hxc : strings.HasPrefix t "x-category:" = true → t.data.head? = some 'x' :=
    fun h => isPrefixOf_head 'x' ['-', 'c', 'a', 't', 'e', 'g', 'o', 'r', 'y', ':'] _ h
  have hxd3 : strings.HasPrefix t "x-domain:" = true → (t.data.drop 2).head? = some 'd' :=
    fun h => isPrefixOf_third 'x' '-' 'd' ['o', 'm', 'a', 'i', 'n', ':'] _ h
  have hxc3 : strings.HasPrefix t "x-category:" = true → (t.data.drop 2).head? = some 'c' :=
    fun h => isPrefixOf_third 'x' '-' 'c' ['a', 't', 'e', 'g', 'o', 'r', 'y', ':'] _ h
  refine ⟨fun h => ⟨?_, ?_, ?_⟩, fun h => ⟨?_, ?_⟩, fun h => ?_⟩
  · cases h' : strings.HasPrefix t "Category:" with
    | false => rfl
    | true => exact absurd ((hD h).symm.trans (hC h')) (by decide)
  · cases h' : strings.HasPrefix t "x-domain:" with
    | false => rfl
    | true => exact absurd ((hD h).symm.trans (hxd h')) (by decide)
  · cases h' : strings.HasPrefix t "x-category:" with
    | false => rfl
    | true => exact absurd ((hD h).symm.trans (hxc h')) (by decide)
  · cases h' : strings.HasPrefix t "x-domain:" with
    | false => rfl
    | true => exact absurd ((hC h).symm.trans (hxd h')) (by decide)
  · cases h' : strings.HasPrefix t "x-category:" with
    | false => rfl
    | true => exact absurd ((hC h).symm.trans (hxc h')) (by decide)
  · cases h' : strings.HasPrefix t "x-category:" with
    | false => rfl
    | true => exact absurd ((hxd3 h).symm.trans (hxc3 h')) (by decide)

/-- One iteration of the loop of `getExtensions` sets the extension of the line, if any. -/
theorem getExtensions_body_eq (ext : StrMap) (line : String) :
    getExtensions.body ext line
      = match lineExtension line with
        | some d => ext.set d.1 d.2
        | none => ext := by
  have e1 : XDomainExtension ++ ":" = "x-domain:" := by decide
  have e2 : XDomainCategoryExtension ++ ":" = "x-category:" := by decide
  have e3 : XDomainExtension = "x-domain" := rfl
  have e4 : XDomainCategoryExtension = "x-category" := rfl
  unfold getExtensions.body lineExtension
  simp only [e1, e2]
  rw [e3, e4]
  generalize strings.TrimSpace line = t
  obtain ⟨x1, x2, x3⟩ := hasPrefix_exclusive t
  by_cases hD : strings.HasPrefix t "Domain:" = true
  · obtain ⟨h1, h2, h3⟩ := x1 hD
    simp [hD, h1, h2, h3]
  · by_cases hxd : strings.HasPrefix t "x-domain:" = true
    · have h3 := x3 hxd
      have hC : strings.HasPrefix t "Category:" = false := by
        cases h' : strings.HasPrefix t "Category:" with
        | false => rfl
        | true => rw [(x2 h').1] at hxd; exact absurd hxd (by decide)
      simp [hD, hxd, h3, hC]
    · by_cases hC : strings.HasPrefix t "Category:" = true
      · obtain ⟨_, h2⟩ := x2 hC
        simp [hD, hxd, hC, h2]
      · by_cases hxc : strings.HasPrefix t "x-category:" = true
        · simp [hD, hxd, hC, hxc]
        · simp [hD, hxd, hC, hxc]

theorem getExtensions_foldl_eq (lines : List String) :
    ∀ ext : StrMap,
      lines.foldl getExtensions.body ext
        = (lines.filterMap lineExtension).foldl (fun m d => StrMap.set m d.1 d.2) ext := by
  induction lines with
  | nil => intro ext; rfl
  | cons line rest ih =>
    intro ext
    rw [List.foldl_cons, ih, getExtensions_body_eq, List.filterMap_cons]
    cases lineExtension line with
    | none => rfl
    | some d => rfl

/-- `getExtensions` succeeds exactly on the nodes with an extension line, and then returns
the map built from these lines in order. -/
theorem getExtensions_eq (pc : parser.Comment) :
    getExtensions pc
      = if nodeDirectives pc = [] then (none, false)
        else (some ((nodeDirectives pc).foldl (fun m d => StrMap.set m d.1 d.2) []), true) := by
  unfold getExtensions
  simp only []
  rw [getExtensions_foldl_eq]
  have hfold : (removeInitialEmptyLinesAndAsterisks pc.Lines).filterMap lineExtension
      = nodeDirectives pc := rfl
  rw [hfold]
  cases h : nodeDirectives pc with
  | nil => simp
  | cons d r =>
    have hne : (d :: r).foldl (fun m d => StrMap.set m d.1 d.2) [] ≠ [] := by
      rw [List.foldl_cons]
      exact foldl_set_ne_nil r _ (set_ne_nil [] d.1 d.2)
    have hpos : ((d :: r).foldl (fun m d => StrMap.set m d.1 d.2) []).length > 0 :=
      List.length_pos.mpr hne
    rw [if_pos hpos]
    simp

/-- What the loop of `composeHeadComment` returns: the texts of the nodes without an
extension line, and a map in which the last extension line of a key overrides the value the
loop started with. -/
theorem composeHeadComment_loop_spec (pcs : List parser.Comment) :
    ∀ ext : StrMap,
      (composeHeadComment.loop pcs ext).1
          = (pcs.filter (fun pc => (nodeDirectives pc).isEmpty)).map
              (fun pc => extractComment (some pc))
        ∧ ∀ k, (composeHeadComment.loop pcs ext).2.get? k
            = (lastValue (directives pcs) k).or (ext.get? k) := by
  induction pcs with
  | nil =>
    intro ext
    simp [composeHeadComment.loop, directives, lastValue]
  | cons pc rest ih =>
    intro ext
    have hd : directives (pc :: rest) = nodeDirectives pc ++ directives rest := by
      simp [directives]
    by_cases hn : nodeDirectives pc = []
    · have hg : getExtensions pc = (none, false) := by
        rw [getExtensions_eq, if_pos hn]
      obtain ⟨ih1, ih2⟩ := ih ext
      simp only [composeHeadComment.loop, hg]
      refine ⟨?_, ?_⟩
      · rw [ih1, List.filter_cons]
        simp [hn]
      · intro k
        rw [ih2, hd, hn, List.nil_append]
    · have hg : getExtensions pc
          = (some ((nodeDirectives pc).foldl (fun m d => StrMap.set m d.1 d.2) []), true) := by
        rw [getExtensions_eq, if_neg hn]
      obtain ⟨ih1, ih2⟩ :=
        ih (ext.setAll ((nodeDirectives pc).foldl (fun m d => StrMap.set m d.1 d.2) []))
      simp only [composeHeadComment.loop, hg]
      refine ⟨?_, ?_⟩
      · rw [ih1, List.filter_cons]
        simp [hn]
      · intro k
        have hnd : lastValue ((nodeDirectives pc).foldl
            (fun m d => StrMap.set m d.1 d.2) []) k
              = lastValue (nodeDirectives pc) k := by
          rw [lastValue_of_nodup _ _ (nodup_foldl_set _ [] List.nodup_nil), get_foldl_set]
          simp [StrMap.get?]
        rw [ih2, get_setAll, hnd, hd, lastValue_append]
        cases lastValue (directives rest) k <;> simp

/-! ## Claims on extensions -/

/-- C13 (counterexample): (1) the node with the lines `Domain: A` and `Domain: B` has the
line `Domain: A`, whose trimmed remainder is `A`, but the returned map holds `B` under
`x-domain`; (2) in the node with the lines `text` and `*   Domain: x` no stripped line begins
with one of the four markers (the second is stripped to `"  Domain: x"`), yet the node
contributes no text and sets `x-domain`. -/
theorem composeHeadComment_directive_counterexamples :
    ("Domain: A" ∈ removeInitialEmptyLinesAndAsterisks twoDomainsComment.Lines
        ∧ strings.HasPrefix "Domain: A" "Domain:" = true
        ∧ strings.TrimSpace (strings.TrimPrefix "Domain: A" "Domain:") = "A"
        ∧ (composeHeadComment [twoDomainsComment] none).2.get? "x-domain" = some "B")
      ∧ (removeInitialEmptyLinesAndAsterisks indentedDomainComment.Lines
            = ["text", "  Domain: x"]
          ∧ (∀ line ∈ removeInitialEmptyLinesAndAsterisks indentedDomainComment.Lines,
              strings.HasPrefix line "Domain:" = false
                ∧ strings.HasPrefix line "Category:" = false
                ∧ strings.HasPrefix line "x-domain:" = false
                ∧ strings.HasPrefix line "x-category:" = false)
          ∧ composeHeadComment [indentedDomainComment] none = ("", [("x-domain", "x")])) := by
  decide

/-- C13 (amended): the string returned by `composeHeadComment` is made of the texts of the
nodes that have no extension line, where an extension line is a stripped line whose
whitespace-trimmed form begins with `Domain:`, `Category:`, `x-domain:` or `x-category:`; a
node with such a line contributes no text; the returned map holds, under `x-domain` or
`x-category`, the trimmed remainder of the last extension line of that key among all nodes;
and `getExtensions` returns no extension for a node without such a line. -/
theorem composeHeadComment_diverts_extensions (pcs : List parser.Comment)
    (parentExtensions : Option StrMap) :
    (composeHeadComment pcs parentExtensions).1
        = strings.Join ((pcs.filter (fun pc => (nodeDirectives pc).isEmpty)).map
            (fun pc => extractComment (some pc))) "\n"
      ∧ (∀ k v, lastValue (directives pcs) k = some v →
          (composeHeadComment pcs parentExtensions).2.get? k = some v)
      ∧ (∀ pc, nodeDirectives pc = [] → getExtensions pc = (none, false))
      ∧ (∀ pc, nodeDirectives pc ≠ [] → (getExtensions pc).2 = true)
      ∧ (∀ d ∈ directives pcs, d.1 = "x-domain" ∨ d.1 = "x-category") := by
  obtain ⟨h1, h2⟩ := composeHeadComment_loop_spec pcs
    (StrMap.setAll [] (parentExtensions.getD []))
  refine ⟨?_, ?_, ?_, ?_, ?_⟩
  · unfold composeHeadComment
    simp only []
    rw [h1]
  · intro k v hv
    unfold composeHeadComment
    simp only []
    rw [h2, hv]
    rfl
  · intro pc hn
    rw [getExtensions_eq, if_pos hn]
  · intro pc hn
    rw [getExtensions_eq, if_neg hn]
  · intro d hd
    unfold directives nodeDirectives at hd
    rw [List.mem_flatMap] at hd
    obtain ⟨pc, _, hd⟩ := hd
    rw [List.mem_filterMap] at hd
    obtain ⟨line, _, hline⟩ := hd
    unfold lineExtension at hline
    simp only [] at hline
    split at hline
    · left
      simp only [Option.some.injEq] at hline
      rw [← hline]
    · split at hline
      · left
        simp only [Option.some.injEq] at hline
        rw [← hline]
      · split at hline
        · right
          simp only [Option.some.injEq] at hline
          rw [← hline]
        · split at hline
          · right
            simp only [Option.some.injEq] at hline
            rw [← hline]
          · simp at hline

/-- C13 (witness): the node with the lines `Domain: A`, `Domain: B` sets `x-domain` to `B`. -/
theorem composeHeadComment_diverts_extensions_witness :
    (composeHeadComment [twoDomainsComment] none).2.get? "x-domain" = some "B" :=
  (composeHeadComment_diverts_extensions [twoDomainsComment] none).2.1 "x-domain" "B"
    (by decide)

/-- C14: for every parent map `P` (a map: no key twice) and list of comment nodes, the map
returned by `composeHeadComment` holds, for each key, the value of the last extension line of
that key at the current level if there is one, and the entry of `P` otherwise; without a
parent it holds the values of the current level only.  (The function writes only to the fresh
map `extensions`, into which it copies `P`.) -/
theorem composeHeadComment_inherits (P : StrMap) (pcs : List parser.Comment) (k : String)
    (hP : (P.map (fun e => e.1)).Nodup) :
    (composeHeadComment pcs (some P)).2.get? k = (lastValue (directives pcs) k).or (P.get? k)
      ∧ ((∀ d ∈ directives pcs, d.1 ≠ k) →
          (composeHeadComment pcs (some P)).2.get? k = P.get? k)
      ∧ (∀ v, lastValue (directives pcs) k = some v →
          (composeHeadComment pcs (some P)).2.get? k = some v)
      ∧ (composeHeadComment pcs none).2.get? k = lastValue (directives pcs) k := by
  have hmain : (composeHeadComment pcs (some P)).2.get? k
      = (lastValue (directives pcs) k).or (P.get? k) := by
    unfold composeHeadComment
    simp only []
    rw [(composeHeadComment_loop_spec pcs _).2, get_setAll, Option.getD_some,
      lastValue_of_nodup P k hP]
    simp [StrMap.get?]
  refine ⟨hmain, ?_, ?_, ?_⟩
  · intro hno
    rw [hmain, (lastValue_eq_none_iff _ _).mpr hno]
    rfl
  · intro v hv
    rw [hmain, hv]
    rfl
  · unfold composeHeadComment
    simp only []
    rw [(composeHeadComment_loop_spec pcs _).2]
    simp [StrMap.setAll, StrMap.get?]

/-- C14 (witness): with the parent `{x-domain: "A"}`, a child line `Category: B` gives
`{x-domain: "A", x-category: "B"}` and a child line `Domain: C` gives `{x-domain: "C"}`. -/
theorem composeHeadComment_inherits_witness :
    (composeHeadComment [⟨["Category: B"]⟩] (some [("x-domain", "A")])).2.get? "x-domain"
        = StrMap.get? [("x-domain", "A")] "x-domain"
      ∧ (composeHeadComment [⟨["Category: B"]⟩] (some [("x-domain", "A")])).2
        = [("x-domain", "A"), ("x-category", "B")]
      ∧ (composeHeadComment [⟨["Domain: C"]⟩] (some [("x-domain", "A")])).2
        = [("x-domain", "C")] :=
  ⟨(composeHeadComment_inherits [("x-domain", "A")] [⟨["Category: B"]⟩] "x-domain"
      (by decide)).2.1 (by decide),
    by decide, by decide⟩

/-! ## Lemmas on composing a composed comment -/

theorem strings.Join_splitChars_sep (c : Char) (cs : List Char) :
    strings.Join ((strings.splitChars c cs).map String.mk) (String.mk [c]) = String.mk cs := by
  induction cs with
  | nil => rfl
  | cons x cs ih =>
    cases hsp : strings.splitChars c cs with
    | nil => exact absurd hsp (strings.splitChars_ne_nil _ _)
    | cons h t =>
      rw [hsp] at ih
      by_cases hx : x = c
      · have e : strings.splitChars c (x :: cs) = [] :: h :: t := by
          simp [strings.splitChars, hx, hsp]
        rw [e]
        simp only [List.map_cons] at ih ⊢
        rw [strings.Join_cons_cons, ih, hx]
        apply String.ext
        simp [String.data_append]
      · rw [strings.splitChars_cons_of_ne c x cs h t hx hsp]
        cases t with
        | nil =>
          simp only [List.map_cons, List.map_nil, strings.Join] at ih ⊢
          injection ih with ih
          rw [ih]
        | cons b r =>
          simp only [List.map_cons] at ih ⊢
          rw [strings.Join_cons_cons] at ih ⊢
          rw [String.append_assoc, strings.mk_cons_append, ← String.append_assoc, ih]

theorem strings.Join_Split_newline (s : String) :
    strings.Join (strings.Split s '\n') "\n" = s := by
  unfold strings.Split
  exact strings.Join_splitChars_sep '\n' s.data

theorem hasPrefix_star_false (l : String) (p : List Char) (h : l.data.head? ≠ some '*') :
    strings.HasPrefix l (String.mk ('*' :: p)) = false := by
  cases hp : strings.HasPrefix l (String.mk ('*' :: p)) with
  | false => rfl
  | true => exact absurd (isPrefixOf_head '*' p _ hp) h

/-- A trimmed line that does not start with an asterisk is kept as it is. -/
theorem removeInitialAsterisk_plain (l : String) (htrim : strings.TrimSpace l = l)
    (hstar : l.data.head? ≠ some '*') : removeInitialAsterisk l = l := by
  have h1 : strings.HasPrefix l "* " = false := hasPrefix_star_false l [' '] hstar
  have h2 : strings.HasPrefix l "*\t" = false := hasPrefix_star_false l ['\t'] hstar
  have h3 : l ≠ "*" := by
    intro h
    rw [h] at hstar
    exact hstar rfl
  unfold removeInitialAsterisk
  simp only [htrim, h1, h3, strings.TrimPrefix, h2, Bool.false_eq_true, if_false]

theorem removeInitial_plain (lines : List String)
    (hlines : ∀ l ∈ lines, strings.TrimSpace l = l ∧ l.data.head? ≠ some '*')
    (hfirst : lines.head? ≠ some "") :
    removeInitialEmptyLinesAndAsterisks lines = lines := by
  unfold removeInitialEmptyLinesAndAsterisks
  cases lines with
  | nil => rfl
  | cons l0 rest =>
    obtain ⟨ht, hs⟩ := hlines l0 (List.mem_cons_self _ _)
    have hne : l0 ≠ "" := fun h => hfirst (by rw [h]; rfl)
    have h1 : strings.HasPrefix l0 "* " = false := hasPrefix_star_false l0 [' '] hs
    have h2 : strings.HasPrefix l0 "*\t" = false := hasPrefix_star_false l0 ['\t'] hs
    have h3 : l0 ≠ "*" := by
      intro h
      rw [h] at hs
      exact hs rfl
    have hdec : isLeadingDecoration l0 = false := by
      unfold isLeadingDecoration
      simp [ht, hne, h1, h2, h3]
    rw [removeInitial_loop_false, List.dropWhile_cons, hdec]
    simp only [Bool.false_eq_true, if_false]
    rw [List.map_congr_left (g := id)]
    · simp
    · intro l hl
      exact removeInitialAsterisk_plain l (hlines l hl).1 (hlines l hl).2

/-! ## Claims on composing a composed comment -/

/-- C15 (counterexample): the string `"a\n  b"` is the composed comment of the raw lines
`a`, `*   b`; none of its lines starts with an asterisk, its first line is not blank and it
has no extension line; composing it again yields `"a\nb"`, not the string itself. -/
theorem extractComment_not_idempotent :
    extractComment (some ⟨indentedLines⟩) = "a\n  b"
      ∧ strings.Split "a\n  b" '\n' = ["a", "  b"]
      ∧ (∀ l ∈ strings.Split "a\n  b" '\n', l.data.head? ≠ some '*')
      ∧ (strings.Split "a\n  b" '\n').head? ≠ some ""
      ∧ nodeDirectives ⟨strings.Split "a\n  b" '\n'⟩ = []
      ∧ extractComment (some ⟨strings.Split "a\n  b" '\n'⟩) = "a\nb"
      ∧ (composeHeadComment [⟨strings.Split "a\n  b" '\n'⟩] none).1 = "a\nb"
      ∧ extractComment (some ⟨strings.Split (extractComment (some ⟨indentedLines⟩)) '\n'⟩)
          ≠ extractComment (some ⟨indentedLines⟩) := by
  decide

/-- C15 (amended): for every string `s` that is whitespace-trimmed, each line of which is
whitespace-trimmed and does not start with an asterisk, and whose first line is not blank,
composing the comment whose lines are the lines of `s` yields `s` again, through
`extractComment` and, when no line is an extension line, through `composeHeadComment`. -/
theorem extractComment_idempotent (s : String)
    (htrim : strings.TrimSpace s = s)
    (hlines : ∀ l ∈ strings.Split s '\n',
      strings.TrimSpace l = l ∧ l.data.head? ≠ some '*')
    (hfirst : (strings.Split s '\n').head? ≠ some "") :
    extractComment (some ⟨strings.Split s '\n'⟩) = s
      ∧ (nodeDirectives ⟨strings.Split s '\n'⟩ = [] →
          ∀ parentExtensions,
            (composeHeadComment [⟨strings.Split s '\n'⟩] parentExtensions).1 = s) := by
  have h : extractComment (some ⟨strings.Split s '\n'⟩) = s := by
    unfold extractComment
    simp only []
    rw [removeInitial_plain _ hlines hfirst, strings.Join_Split_newline, htrim]
  refine ⟨h, ?_⟩
  intro hnd parentExtensions
  unfold composeHeadComment
  simp only []
  rw [(composeHeadComment_loop_spec _ _).1]
  simp only [List.filter_cons, hnd, List.isEmpty_nil, if_true, List.filter_nil, List.map_cons,
    List.map_nil, strings.Join]
  exact h

/-- C15 (witness): the composed comment of the raw lines ` * Hello`, ` *`, ` * world` is
`"Hello\n\nworld"`, and composing it again yields the same string. -/
theorem extractComment_idempotent_witness :
    extractComment (some ⟨helloWorldLines⟩) = "Hello\n\nworld"
      ∧ extractComment (some ⟨strings.Split (extractComment (some ⟨helloWorldLines⟩)) '\n'⟩)
          = extractComment (some ⟨helloWorldLines⟩) :=
  ⟨by decide,
    (extractComment_idempotent (extractComment (some ⟨helloWorldLines⟩))
      (by decide) (by decide) (by decide)).1⟩

/-! ## Lemmas on renderings -/

theorem isEnum_loop_repeat (f : Field) (b : Bool) (pf : ProtoFile) (scopes : List String)
    (i : Nat) :
    Field.isEnum.loop { f with Repeat := b } pf scopes i = Field.isEnum.loop f pf scopes i := by
  induction i with
  | zero => rfl
  | succ j ih =>
    show Field.isEnum.body { f with Repeat := b } pf scopes (j + 1)
        (Field.isEnum.loop { f with Repeat := b } pf scopes j)
      = Field.isEnum.body f pf scopes (j + 1) (Field.isEnum.loop f pf scopes j)
    rw [ih]
    rfl

theorem isObject_loop_repeat (f : Field) (b : Bool) (pf : ProtoFile) (scopes : List String)
    (i : Nat) :
    Field.isObject.loop { f with Repeat := b } pf scopes i
      = Field.isObject.loop f pf scopes i := by
  induction i with
  | zero => rfl
  | succ j ih =>
    show Field.isObject.body { f with Repeat := b } pf scopes (j + 1)
        (Field.isObject.loop { f with Repeat := b } pf scopes j)
      = Field.isObject.body f pf scopes (j + 1) (Field.isObject.loop f pf scopes j)
    rw [ih]
    rfl

theorem isMap_loop_repeat (f : Field) (b : Bool) (pf : ProtoFile) (scopes : List String)
    (i : Nat) :
    Field.isMap.loop { f with Repeat := b } pf scopes i = Field.isMap.loop f pf scopes i := by
  induction i with
  | zero => rfl
  | succ j ih =>
    show Field.isMap.body { f with Repeat := b } pf scopes (j + 1)
        (Field.isMap.loop { f with Repeat := b } pf scopes j)
      = Field.isMap.body f pf scopes (j + 1) (Field.isMap.loop f pf scopes j)
    rw [ih]
    rfl

/-- The resolver functions do not read the repeated flag. -/
theorem resolvers_repeat (f : Field) (b : Bool) (pf : ProtoFile) :
    Field.isScalar { f with Repeat := b } = f.isScalar
      ∧ Field.isEnum { f with Repeat := b } pf = f.isEnum pf
      ∧ Field.isObject { f with Repeat := b } pf = f.isObject pf
      ∧ Field.isMap { f with Repeat := b } pf = f.isMap pf := by
  refine ⟨rfl, ?_, ?_, ?_⟩
  · unfold Field.isEnum
    simp only [isEnum_loop_repeat]
  · unfold Field.isObject
    simp only [isObject_loop_repeat]
  · unfold Field.isMap
    simp only [isMap_loop_repeat]

theorem typeBase_repeat (f : Field) (b : Bool) (pf : ProtoFile) :
    Field.TypeBase { f with Repeat := b } pf = f.TypeBase pf := by
  obtain ⟨h1, h2, h3, h4⟩ := resolvers_repeat f b pf
  unfold Field.TypeBase
  rw [h1, h2, h3, h4]

theorem indexChars_not_mem (c : Char) (l : List Char) (h : c ∉ l) :
    strings.indexChars c l = -1 := by
  induction l with
  | nil => rfl
  | cons x xs ih =>
    have hx : x ≠ c := fun e => h (by simp [e])
    have hxs : c ∉ xs := fun e => h (by simp [e])
    simp [strings.indexChars, hx, ih hxs]

theorem indexChars_append (c : Char) (pre post : List Char) (h : c ∉ pre) :
    strings.indexChars c (pre ++ c :: post) = (pre.length : Int) := by
  induction pre with
  | nil => simp [strings.indexChars]
  | cons x xs ih =>
    have hx : x ≠ c := fun e => h (by simp [e])
    have hxs : c ∉ xs := fun e => h (by simp [e])
    have hnn : ¬ ((xs.length : Int) < 0) := by omega
    rw [List.cons_append]
    simp only [strings.indexChars, hx, if_false, ih hxs, hnn, List.length_cons]
    push_cast
    rfl

/-! ## Claims on renderings -/

/-- C21 (counterexample): a field with an empty type name renders as `(nil)` with the
repeated flag set and with the flag cleared, so the rendering with the flag set is not `[]`
followed by the rendering with the flag cleared. -/
theorem typ_repeat_empty_type_name :
    untypedField = { untypedRepeatedField with Repeat := false }
      ∧ untypedRepeatedField.Repeat = true
      ∧ untypedRepeatedField.Typ ProtoFile.empty = "(nil)"
      ∧ untypedField.Typ ProtoFile.empty = "(nil)"
      ∧ untypedRepeatedField.Typ ProtoFile.empty ≠ "[]" ++ untypedField.Typ ProtoFile.empty := by
  decide

/-- C21 (amended): for every field with a non-empty type name and every pair of catalogs, the
rendering `Type` of the field with the repeated flag set is `[]` followed by the rendering
of the same field with the flag cleared; the flag changes neither `TypeBase` nor the result of
any resolver function; and a field with an empty type name renders as `(nil)` whatever the
flag. -/
theorem typ_repeat (f : Field) (pf : ProtoFile) (hne : f.TypeName ≠ "") :
    Field.Typ { f with Repeat := true } pf = "[]" ++ Field.Typ { f with Repeat := false } pf
      ∧ (∀ b, Field.TypeBase { f with Repeat := b } pf = f.TypeBase pf
          ∧ Field.isScalar { f with Repeat := b } = f.isScalar
          ∧ Field.isEnum { f with Repeat := b } pf = f.isEnum pf
          ∧ Field.isObject { f with Repeat := b } pf = f.isObject pf
          ∧ Field.isMap { f with Repeat := b } pf = f.isMap pf)
      ∧ (∀ g : Field, g.TypeName = "" → g.Typ pf = "(nil)") := by
  refine ⟨?_, fun b => ⟨typeBase_repeat f b pf, resolvers_repeat f b pf⟩, ?_⟩
  · unfold Field.Typ
    simp only [hne, if_false, typeBase_repeat, if_true, Bool.false_eq_true]
  · intro g hg
    unfold Field.Typ
    rw [if_pos hg]

/-- C21 (witness): the field `Kind k` of `Outer.Inner`, against the model of `deepTree`. -/
theorem typ_repeat_witness :
    Field.Typ { kindField with Repeat := true } (ProtoFile.empty.ComposeFrom deepTree).1
      = "[]" ++ Field.Typ { kindField with Repeat := false }
          (ProtoFile.empty.ComposeFrom deepTree).1 :=
  (typ_repeat kindField (ProtoFile.empty.ComposeFrom deepTree).1 (by decide)).1

/-- C22 (counterexample): the non-repeated, non-map, non-scalar field with the empty type
name resolves, against catalogs holding an object with the empty name, to that object, but
its `TypeHRef` is `(nil)`, not a link to the object's anchor. -/
theorem typeHRef_empty_type_name :
    untypedField.Repeat = false
      ∧ untypedField.KeyTypeName = ""
      ∧ untypedField.isScalar.2 = false
      ∧ (untypedField.isEnum catalogEmptyName).2 = false
      ∧ (⟨"", "", []⟩ : Object) ∈ catalogEmptyName.Objects
      ∧ untypedField.isObject catalogEmptyName = ((⟨"", "", []⟩ : Object).Name, true)
      ∧ untypedField.TypeBase catalogEmptyName = "message " ++ (⟨"", "", []⟩ : Object).Name
      ∧ untypedField.TypeHRef id catalogEmptyName = "(nil)"
      ∧ untypedField.TypeHRef id catalogEmptyName
          ≠ "[" ++ (⟨"", "", []⟩ : Object).Name ++ "](" ++ Object.HRef id ⟨"", "", []⟩ ++ ")" := by
  decide

/-- C22 (amended): for every non-repeated, non-map, non-scalar field with a non-empty type
name, if it resolves to the catalogued enum `e` then `TypeHRef` is `"[enum " + e.Name + "]("
+ e.HRef() + ")"`, and if it resolves to no enum and to the catalogued object `o` then
`TypeHRef` is `"[" + o.Name + "](" + o.HRef() + ")"`; a successful enum or object lookup
always returns the name of a catalogued entry. -/
theorem typeHRef_anchor (ToLower : String → String) (f : Field) (pf : ProtoFile)
    (hrep : f.Repeat = false) (_hkey : f.KeyTypeName = "") (hsc : f.isScalar.2 = false)
    (hne : f.TypeName ≠ "") :
    (∀ e ∈ pf.Enums, f.isEnum pf = (e.Name, true) →
        f.TypeHRef ToLower pf = "[enum " ++ e.Name ++ "](" ++ e.HRef ToLower ++ ")")
      ∧ (∀ o ∈ pf.Objects, (f.isEnum pf).2 = false → f.isObject pf = (o.Name, true) →
          f.TypeHRef ToLower pf = "[" ++ o.Name ++ "](" ++ o.HRef ToLower ++ ")")
      ∧ ((f.isEnum pf).2 = true → ∃ e ∈ pf.Enums, f.isEnum pf = (e.Name, true))
      ∧ ((f.isObject pf).2 = true → ∃ o ∈ pf.Objects, f.isObject pf = (o.Name, true)) := by
  have e1 : "](#enum-" = "](" ++ "#enum-" := by decide
  have e2 : "](#тип-" = "](" ++ "#тип-" := by decide
  refine ⟨?_, ?_, ?_, ?_⟩
  · intro e _ he
    unfold Field.TypeHRef Field.typeHRefBase Enum.HRef
    simp only [hne, hrep, hsc, he, if_false, if_true, Bool.false_eq_true]
    rw [e1]
    simp only [String.append_assoc]
  · intro o _ hen ho
    unfold Field.TypeHRef Field.typeHRefBase Object.HRef
    simp only [hne, hrep, hsc, hen, ho, if_false, if_true, Bool.false_eq_true]
    rw [e2]
    simp only [String.append_assoc]
  · intro h
    have hk : ¬ f.KeyTypeName ≠ "" := by
      intro hk
      unfold Field.isEnum at h
      rw [if_pos hk] at h
      simp at h
    have hl : f.isEnum pf = Field.isEnum.loop f pf (strings.Split f.Enclosing '.')
        (strings.Split f.Enclosing '.').length := by
      unfold Field.isEnum
      rw [if_neg hk]
    rw [hl] at h ⊢
    obtain ⟨e, he, hname⟩ := isEnum_loop_true f pf _ _ h
    exact ⟨e, he, Prod.ext hname h⟩
  · intro h
    have hk : ¬ f.KeyTypeName ≠ "" := by
      intro hk
      unfold Field.isObject at h
      rw [if_pos hk] at h
      simp at h
    have hl : f.isObject pf = Field.isObject.loop f pf (strings.Split f.Enclosing '.')
        (strings.Split f.Enclosing '.').length := by
      unfold Field.isObject
      rw [if_neg hk]
    rw [hl] at h ⊢
    obtain ⟨o, ho, hname⟩ := isObject_loop_true f pf _ _ h
    exact ⟨o, ho, Prod.ext hname h⟩

/-- C22 (witness): the field `Kind k` of `Outer.Inner` links to the anchor of the enum
`Outer.Inner.Kind` of the model of `deepTree`. -/
theorem typeHRef_anchor_witness :
    kindField.TypeHRef id (ProtoFile.empty.ComposeFrom deepTree).1
      = "[enum " ++ (enumOf ("Outer.Inner.Kind", ⟨"Kind", kindBody, []⟩)).Name ++ "]("
          ++ Enum.HRef id (enumOf ("Outer.Inner.Kind", ⟨"Kind", kindBody, []⟩)) ++ ")" :=
  (typeHRef_anchor id kindField (ProtoFile.empty.ComposeFrom deepTree).1
    (by decide) (by decide) (by decide) (by decide)).1
    (enumOf ("Outer.Inner.Kind", ⟨"Kind", kindBody, []⟩)) (by decide) (by decide)

/-- C23: for every `Endpoint` whose `Comment` has its first newline after a non-empty text
`pre`, `Summary()` is `pre`, which holds no newline, `Description()` is the text after that
newline, and `Summary() + "\n" + Description()` is the `Comment`; for every `Endpoint` whose
`Comment` holds no newline or begins with a newline, `Summary()` and `Description()` are both
the whole `Comment`. -/
theorem summary_description_split (e : Endpoint) :
    (∀ pre post : List Char, e.Comment.data = pre ++ '\n' :: post → '\n' ∉ pre → pre ≠ [] →
        e.Summary = String.mk pre
          ∧ '\n' ∉ e.Summary.data
          ∧ e.Description = String.mk post
          ∧ e.Summary ++ "\n" ++ e.Description = e.Comment)
      ∧ ('\n' ∉ e.Comment.data → e.Summary = e.Comment ∧ e.Description = e.Comment)
      ∧ (e.Comment.data.head? = some '\n' →
          e.Summary = e.Comment ∧ e.Description = e.Comment) := by
  refine ⟨?_, ?_, ?_⟩
  · intro pre post hdata hpre hne
    have hidx : strings.IndexByte e.Comment '\n' = (pre.length : Int) := by
      unfold strings.IndexByte
      rw [hdata]
      exact indexChars_append '\n' pre post hpre
    have hpos : (pre.length : Int) > 0 := by
      have : 0 < pre.length := List.length_pos.mpr hne
      omega
    have hs : e.Summary = String.mk pre := by
      unfold Endpoint.Summary
      simp only [hidx, hpos, if_true, Int.toNat_ofNat, hdata]
      rw [List.take_left']
      rfl
    have hd : e.Description = String.mk post := by
      unfold Endpoint.Description
      have h1 : ((pre.length : Int) + 1).toNat = pre.length + 1 := by
        have h0 : ((pre.length : Int) + 1) = ((pre.length + 1 : Nat) : Int) := by
          push_cast
          rfl
        rw [h0, Int.toNat_ofNat]
      simp only [hidx, hpos, if_true, h1, hdata]
      rw [List.drop_append]
      rfl
    refine ⟨hs, ?_, hd, ?_⟩
    · rw [hs]
      exact hpre
    · rw [hs, hd]
      apply String.ext
      rw [String.data_append, String.data_append, hdata]
      simp
  · intro hno
    have hidx : strings.IndexByte e.Comment '\n' = -1 := indexChars_not_mem '\n' _ hno
    unfold Endpoint.Summary Endpoint.Description
    simp [hidx]
  · intro hhead
    have hidx : strings.IndexByte e.Comment '\n' = 0 := by
      unfold strings.IndexByte
      cases hd : e.Comment.data with
      | nil => rw [hd] at hhead; simp at hhead
      | cons x xs =>
        rw [hd] at hhead
        simp only [List.head?_cons, Option.some.injEq] at hhead
        simp [strings.indexChars, hhead]
    unfold Endpoint.Summary Endpoint.Description
    simp [hidx]

/-- C23 (witness): the comment `"Gets an item.\nReturns NotFound if absent."` splits into
the summary `Gets an item.` and the description `Returns NotFound if absent.`. -/
theorem summary_description_split_witness :
    commentedEndpoint.Summary = String.mk "Gets an item.".data
      ∧ commentedEndpoint.Description = String.mk "Returns NotFound if absent.".data
      ∧ commentedEndpoint.Summary ++ "\n" ++ commentedEndpoint.Description
          = commentedEndpoint.Comment :=
  ⟨((summary_description_split commentedEndpoint).1 "Gets an item.".data
      "Returns NotFound if absent.".data (by decide) (by decide) (by decide)).1,
    ((summary_description_split commentedEndpoint).1 "Gets an item.".data
      "Returns NotFound if absent.".data (by decide) (by decide) (by decide)).2.2.1,
    ((summary_description_split commentedEndpoint).1 "Gets an item.".data
      "Returns NotFound if absent.".data (by decide) (by decide) (by decide)).2.2.2⟩

end Protodoc
